import Mathlib

/-!
Verification of the CodeGraph code-intelligence engine.

Each section embeds one slice of the implementation (TypeScript) as Lean
definitions and proves the specified properties about them.  Node / edge /
language kinds are modelled as strings, mirroring the TypeScript string
union types.  Machine floats are modelled as exact reals.  Stateful parts
(store, sync, file lock) are modelled as explicit state passing.
-/

namespace CodeGraph

/-! ## Language detection ( `src/parser/grammars.ts`, `EXTENSION_MAP` / `detectLanguage` ) -/

/-- File extension to language mapping, transcribed from `EXTENSION_MAP`. -/
def EXTENSION_MAP : List (String × String) :=
  [ (".ts", "typescript")
  , (".tsx", "tsx")
  , (".js", "javascript")
  , (".mjs", "javascript")
  , (".cjs", "javascript")
  , (".jsx", "jsx")
  , (".py", "python")
  , (".pyw", "python")
  , (".go", "go")
  , (".rs", "rust")
  , (".java", "java")
  , (".c", "c")
  , (".h", "c")
  , (".cpp", "cpp")
  , (".cc", "cpp")
  , (".cxx", "cpp")
  , (".hpp", "cpp")
  , (".hxx", "cpp")
  , (".cs", "csharp")
  , (".php", "php")
  , (".rb", "ruby")
  , (".rake", "ruby")
  , (".swift", "swift")
  , (".kt", "kotlin")
  , (".kts", "kotlin")
  ]

/-- Suffix of a character list starting at the last `'.'`; `none` when no dot
occurs.  Mirrors `filePath.lastIndexOf('.')` followed by `substring`. -/
def lastDotSuffix : List Char → Option (List Char)
  | [] => none
  | c :: rest =>
    match lastDotSuffix rest with
    | some s => some s
    | none => if c = '.' then some (c :: rest) else none

/-- The extension JavaScript computes: `filePath.substring(filePath.lastIndexOf('.'))`
(the whole string when there is no dot, since `substring(-1)` clamps to 0),
lowercased. -/
def jsExtension (filePath : String) : String :=
  String.mk (((lastDotSuffix filePath.data).getD filePath.data).map Char.toLower)

/-- `detectLanguage` from `grammars.ts`: look the lowercased extension up in
`EXTENSION_MAP`, defaulting to `"unknown"`. -/
def detectLanguage (filePath : String) : String :=
  (EXTENSION_MAP.lookup (jsExtension filePath)).getD "unknown"

theorem lookup_eq_none_of_forall_ne {l : List (String × String)} {k : String}
    (h : ∀ p ∈ l, p.1 ≠ k) : l.lookup k = none := by
  induction l with
  | nil => rfl
  | cons p rest ih =>
    have hp : p.1 ≠ k := h p (List.mem_cons_self p rest)
    have : (k == p.1) = false := by
      simp [beq_iff_eq]
      exact fun hk => hp hk.symm
    simp [List.lookup, this]
    exact fun a b hab hk => h (a, b) (List.mem_cons_of_mem p hab) hk.symm

/-- C9 counterexample: the claim says `.ts` and `.tsx` both map to the language
TypeScript, but `detectLanguage` maps `.tsx` to the distinct tag `"tsx"`
(and `.ts` to `"typescript"`), so the two extensions do not map to one
language value. -/
theorem C9_counterexample :
    detectLanguage "a.tsx" = "tsx" ∧ detectLanguage "a.ts" = "typescript" ∧
      ("tsx" : String) ≠ "typescript" :=
  ⟨by decide, by decide, by decide⟩

/-- C9 (amended): `detectLanguage` lowercases the suffix starting at the last
dot and looks it up in the closed extension table, with `.tsx` mapping to the
dialect tag `"tsx"` and `.jsx` to `"jsx"` (rather than to `"typescript"` /
`"javascript"`); every extension outside the table maps to `"unknown"`. -/
theorem C9_theorem :
    (detectLanguage "f.ts" = "typescript" ∧ detectLanguage "f.tsx" = "tsx" ∧
     detectLanguage "f.js" = "javascript" ∧ detectLanguage "f.jsx" = "jsx" ∧
     detectLanguage "f.mjs" = "javascript" ∧ detectLanguage "f.cjs" = "javascript" ∧
     detectLanguage "f.py" = "python" ∧ detectLanguage "f.pyw" = "python" ∧
     detectLanguage "f.go" = "go" ∧ detectLanguage "f.rs" = "rust" ∧
     detectLanguage "f.java" = "java" ∧ detectLanguage "f.c" = "c" ∧
     detectLanguage "f.h" = "c" ∧ detectLanguage "f.cpp" = "cpp" ∧
     detectLanguage "f.cc" = "cpp" ∧ detectLanguage "f.cxx" = "cpp" ∧
     detectLanguage "f.hpp" = "cpp" ∧ detectLanguage "f.hxx" = "cpp" ∧
     detectLanguage "f.cs" = "csharp" ∧ detectLanguage "f.php" = "php" ∧
     detectLanguage "f.rb" = "ruby" ∧ detectLanguage "f.rake" = "ruby" ∧
     detectLanguage "f.swift" = "swift" ∧ detectLanguage "f.kt" = "kotlin" ∧
     detectLanguage "f.kts" = "kotlin" ∧ detectLanguage "f.TS" = "typescript") ∧
    (∀ fp : String, jsExtension fp ∉ EXTENSION_MAP.map Prod.fst →
      detectLanguage fp = "unknown") := by
  constructor
  · decide
  · intro fp h
    have hnone : EXTENSION_MAP.lookup (jsExtension fp) = none :=
      lookup_eq_none_of_forall_ne fun p hp hk =>
        h (hk ▸ List.mem_map_of_mem Prod.fst hp)
    simp [detectLanguage, hnone]

/-- C9 witness: the unknown-extension clause applied at `"a.xyz"`. -/
theorem C9_witness :
    jsExtension "a.xyz" ∉ EXTENSION_MAP.map Prod.fst ∧
      detectLanguage "a.xyz" = "unknown" :=
  ⟨by decide, C9_theorem.2 "a.xyz" (by decide)⟩

/-! ## Graph data model

Node and edge records as in the data model of `types.ts` (kinds are the
TypeScript string unions, modelled as strings).  Fields not consulted by the
graph queries under verification are omitted from `Edge`. -/

/-- A node of the knowledge graph. -/
structure Node where
  id : String
  kind : String
  name : String
  qualifiedName : String
  filePath : String
  startLine : Nat
  endLine : Nat
  startColumn : Nat
  endColumn : Nat
  language : String
  isExported : Bool := false
  updatedAt : Nat
deriving DecidableEq, Repr

/-- A directed edge of the knowledge graph. -/
structure Edge where
  source : String
  target : String
  kind : String
deriving DecidableEq, Repr

/-- Modelled from the spec: the relational store of §4.A (`db/queries.ts` is
not among the sources); nodes, edges and file records held as lists, with
the point lookups and range scans the graph queries consult. -/
structure Store where
  files : List String
  nodes : List Node
  edges : List Edge
deriving DecidableEq, Repr

/-- Point lookup `getNodeById`. -/
def getNodeById (s : Store) (nodeId : String) : Option Node :=
  s.nodes.find? (fun n => n.id == nodeId)

/-- Range scan `getNodesByFile`. -/
def getNodesByFile (s : Store) (filePath : String) : List Node :=
  s.nodes.filter (fun n => n.filePath == filePath)

/-- Range scan `getNodesByKind`. -/
def getNodesByKind (s : Store) (kind : String) : List Node :=
  s.nodes.filter (fun n => n.kind == kind)

/-- `getIncomingEdges(nodeId)` without a kind filter. -/
def getIncomingEdges (s : Store) (nodeId : String) : List Edge :=
  s.edges.filter (fun e => e.target == nodeId)

/-- `getOutgoingEdges(nodeId, kinds)` with a kind filter. -/
def getOutgoingEdgesOfKinds (s : Store) (nodeId : String) (kinds : List String) : List Edge :=
  s.edges.filter (fun e => e.source == nodeId && kinds.contains e.kind)

/-! ## Dead-code query ( `graph/queries.ts`, `GraphQueryManager.findDeadCode` ) -/

/-- `findDeadCode(kinds?)`: for each target kind, collect the nodes of that
kind that are not exported and whose incoming edges, containment excluded,
are empty. -/
def findDeadCode (s : Store) (kinds : Option (List String)) : List Node :=
  let targetKinds := kinds.getD ["function", "method", "class"]
  targetKinds.flatMap (fun kind =>
    (getNodesByKind s kind).filter (fun n =>
      !n.isExported &&
        ((getIncomingEdges s n.id).filter (fun e => e.kind != "contains")).isEmpty))

/-- C10: every node returned by `findDeadCode` has one of the requested kinds
(default function / method / class), is not exported — so an exported node is
never reported — and has no incoming edges other than `contains` edges. -/
theorem C10_theorem (s : Store) (kinds : Option (List String)) (n : Node)
    (hmem : n ∈ findDeadCode s kinds) :
    n.kind ∈ kinds.getD ["function", "method", "class"] ∧
      n.isExported = false ∧
      ∀ e ∈ s.edges, e.target = n.id → e.kind = "contains" := by
  unfold findDeadCode at hmem
  rw [List.mem_flatMap] at hmem
  obtain ⟨kind, hkind, hn⟩ := hmem
  rw [List.mem_filter] at hn
  obtain ⟨hnk, hpred⟩ := hn
  rw [getNodesByKind, List.mem_filter] at hnk
  obtain ⟨hnodes, hkeq⟩ := hnk
  have hkindeq : n.kind = kind := by simpa using hkeq
  rw [Bool.and_eq_true] at hpred
  obtain ⟨hexp, hemp⟩ := hpred
  refine ⟨hkindeq ▸ hkind, by simpa using hexp, ?_⟩
  intro e he het
  have hfe : (getIncomingEdges s n.id).filter (fun e => e.kind != "contains") = [] :=
    List.isEmpty_iff.mp hemp
  by_contra hne
  have hin : e ∈ getIncomingEdges s n.id := by
    rw [getIncomingEdges, List.mem_filter]
    exact ⟨he, by simpa using het⟩
  have : e ∈ (getIncomingEdges s n.id).filter (fun e => e.kind != "contains") := by
    rw [List.mem_filter]
    exact ⟨hin, by simpa using hne⟩
  rw [hfe] at this
  exact absurd this (List.not_mem_nil e)

/-- C10 witness: a store with a single unexported function node and no
edges; `findDeadCode` reports it and the theorem applies. -/
theorem C10_witness :
    let n : Node := { id := "n1", kind := "function", name := "f",
                      qualifiedName := "f", filePath := "a.ts", startLine := 1,
                      endLine := 1, startColumn := 0, endColumn := 0,
                      language := "typescript", isExported := false,
                      updatedAt := 0 }
    let s : Store := { files := ["a.ts"], nodes := [n], edges := [] }
    n ∈ findDeadCode s none ∧
      (n.kind ∈ ["function", "method", "class"] ∧ n.isExported = false ∧
        ∀ e ∈ s.edges, e.target = n.id → e.kind = "contains") :=
  ⟨by decide, C10_theorem _ none _ (by decide)⟩

/-! ## Circular-dependency query ( `graph/queries.ts`,
`GraphQueryManager.getFileDependencies` / `findCircularDependencies` ) -/

/-- Insertion-order set add, mirroring `Set.add` followed by `Array.from`. -/
def addUnique (acc : List String) (x : String) : List String :=
  if x ∈ acc then acc else acc ++ [x]

/-- `getFileDependencies(filePath)`: the distinct file paths of the resolved
targets of the file node's outgoing `imports` edges, excluding the file
itself. -/
def getFileDependencies (s : Store) (filePath : String) : List String :=
  match (getNodesByFile s filePath).find? (fun n => n.kind == "file") with
  | none => []
  | some fileNode =>
    (getOutgoingEdgesOfKinds s fileNode.id ["imports"]).foldl
      (fun deps e =>
        match getNodeById s e.target with
        | some tn => if tn.filePath != filePath then addUnique deps tn.filePath else deps
        | none => deps) []

/-- DFS bookkeeping of `findCircularDependencies`: visited set, recursion
stack and cycles accumulated so far. -/
structure CDState where
  visited : List String
  recStack : List String
  cycles : List (List String)
deriving DecidableEq, Repr

/-- The recursive `dfs` closure of `findCircularDependencies`, with explicit
fuel standing in for the call stack: a back-edge into the recursion stack
pushes `path.slice(path.indexOf(filePath))` as a cycle. -/
def dfsCD (s : Store) : Nat → String → List String → CDState → CDState
  | 0, _, _, st => st
  | fuel + 1, filePath, path, st =>
    if filePath ∈ st.recStack then
      if filePath ∈ path then
        { st with cycles := st.cycles ++ [path.drop (path.indexOf filePath)] }
      else st
    else if filePath ∈ st.visited then st
    else
      let st1 : CDState := { st with visited := st.visited ++ [filePath],
                                     recStack := st.recStack ++ [filePath] }
      let st2 := (getFileDependencies s filePath).foldl
        (fun acc dep => dfsCD s fuel dep (path ++ [filePath]) acc) st1
      { st2 with recStack := st2.recStack.erase filePath }

/-- `findCircularDependencies()`: run the DFS from every not-yet-visited
file record.  The fuel bounds the recursion depth, which never exceeds the
number of file paths occurring in the store. -/
def findCircularDependencies (s : Store) : List (List String) :=
  (s.files.foldl
    (fun st f => if f ∈ st.visited then st
                 else dfsCD s (s.files.length + s.nodes.length + 1) f [] st)
    { visited := [], recStack := [], cycles := [] }).cycles

theorem mem_addUnique {acc : List String} {x y : String}
    (h : y ∈ addUnique acc x) : y ∈ acc ∨ y = x := by
  unfold addUnique at h
  by_cases hx : x ∈ acc
  · rw [if_pos hx] at h; exact Or.inl h
  · rw [if_neg hx] at h
    rcases List.mem_append.mp h with h1 | h1
    · exact Or.inl h1
    · exact Or.inr (List.mem_singleton.mp h1)

/-- A file is never its own dependency: `getFileDependencies` filters out
targets whose `filePath` equals the argument. -/
theorem mem_getFileDependencies_ne {s : Store} {p x : String}
    (h : x ∈ getFileDependencies s p) : x ≠ p := by
  unfold getFileDependencies at h
  cases hf : (getNodesByFile s p).find? (fun n => n.kind == "file") with
  | none => rw [hf] at h; exact absurd h (List.not_mem_nil x)
  | some fileNode =>
    rw [hf] at h
    suffices hgen : ∀ (es : List Edge) (acc : List String),
        (∀ y ∈ acc, y ≠ p) →
        ∀ y ∈ es.foldl
          (fun deps e =>
            match getNodeById s e.target with
            | some tn => if tn.filePath != p then addUnique deps tn.filePath else deps
            | none => deps) acc, y ≠ p by
      exact hgen _ [] (by simp) x h
    intro es
    induction es with
    | nil => intro acc hacc y hy; exact hacc y hy
    | cons e rest ih =>
      intro acc hacc y hy
      rw [List.foldl_cons] at hy
      refine ih _ ?_ y hy
      intro z hz
      split at hz
      · split at hz
        · rcases mem_addUnique hz with h1 | h1
          · exact hacc z h1
          · subst h1
            rename_i hne
            simpa using hne
        · exact hacc z hz
      · exact hacc z hz

/-- Every cycle the DFS pushes has length at least 2: a length-1 slice would
require the back-edge's file to equal the last path entry, i.e. a file
depending on itself, which `getFileDependencies` excludes. -/
theorem dfsCD_cycles_length (s : Store) : ∀ (fuel : Nat) (f : String)
    (path : List String) (st : CDState),
    (∀ c ∈ st.cycles, 2 ≤ c.length) →
    (∀ l, path.getLast? = some l → f ∈ getFileDependencies s l) →
    ∀ c ∈ (dfsCD s fuel f path st).cycles, 2 ≤ c.length := by
  intro fuel
  induction fuel with
  | zero => intro f path st hst _ c hc; rw [dfsCD] at hc; exact hst c hc
  | succ fuel ih =>
    intro f path st hst hpre c hc
    rw [dfsCD] at hc
    by_cases h1 : f ∈ st.recStack
    · rw [if_pos h1] at hc
      by_cases h2 : f ∈ path
      · rw [if_pos h2] at hc
        simp only at hc
        rcases List.mem_append.mp hc with hold | hnew
        · exact hst c hold
        · have hceq : c = path.drop (path.indexOf f) := List.mem_singleton.mp hnew
          subst hceq
          have hlt : path.indexOf f < path.length := List.indexOf_lt_length.2 h2
          rw [List.length_drop]
          by_contra hshort
          have hone : path.length - path.indexOf f = 1 := by omega
          have hidx : path.indexOf f = path.length - 1 := by omega
          have hgot : path.get ⟨path.indexOf f, hlt⟩ = f := List.indexOf_get hlt
          have hlast : path.getLast? = some f := by
            rw [List.getLast?_eq_getElem?, ← hidx,
                List.getElem?_eq_getElem hlt]
            exact congrArg some hgot
          exact absurd rfl (mem_getFileDependencies_ne (hpre f hlast))
      · rw [if_neg h2] at hc; exact hst c hc
    · rw [if_neg h1] at hc
      by_cases h3 : f ∈ st.visited
      · rw [if_pos h3] at hc; exact hst c hc
      · rw [if_neg h3] at hc
        simp only at hc
        have hfold : ∀ (deps : List String) (st' : CDState),
            (∀ d ∈ deps, d ∈ getFileDependencies s f) →
            (∀ c' ∈ st'.cycles, 2 ≤ c'.length) →
            ∀ c' ∈ (deps.foldl
              (fun acc dep => dfsCD s fuel dep (path ++ [f]) acc) st').cycles,
              2 ≤ c'.length := by
          intro deps
          induction deps with
          | nil => intro st' _ hst' c' hc'; rw [List.foldl_nil] at hc'; exact hst' c' hc'
          | cons d rest ihd =>
            intro st' hdeps hst' c' hc'
            rw [List.foldl_cons] at hc'
            refine ihd _ (fun x hx => hdeps x (List.mem_cons_of_mem d hx)) ?_ c' hc'
            intro c'' hc''
            refine ih d (path ++ [f]) st' hst' ?_ c'' hc''
            intro l hl
            rw [List.getLast?_concat] at hl
            cases hl
            exact hdeps d (List.mem_cons_self d rest)
        exact hfold (getFileDependencies s f)
          { visited := st.visited ++ [f], recStack := st.recStack ++ [f],
            cycles := st.cycles }
          (fun d hd => hd) hst c hc

/-- Helper for the C3 scenarios: a synthetic `file` node. -/
def mkFileNode (p nid : String) : Node :=
  { id := nid, kind := "file", name := p, qualifiedName := p, filePath := p,
    startLine := 1, endLine := 1, startColumn := 0, endColumn := 0,
    language := "typescript", isExported := false, updatedAt := 0 }

/-- The S2 store: two file nodes whose files import each other. -/
def twoFileStore : Store :=
  { files := ["a.ts", "b.ts"]
  , nodes := [mkFileNode "a.ts" "fa", mkFileNode "b.ts" "fb"]
  , edges := [⟨"fa", "fb", "imports"⟩, ⟨"fb", "fa", "imports"⟩] }

/-- Three files: `a.ts` forms one import cycle with `b.ts` and a second,
node-sharing cycle with `c.ts`. -/
def sharedCycleStore : Store :=
  { files := ["a.ts", "b.ts", "c.ts"]
  , nodes := [mkFileNode "a.ts" "fa", mkFileNode "b.ts" "fb", mkFileNode "c.ts" "fc"]
  , edges := [⟨"fa", "fb", "imports"⟩, ⟨"fa", "fc", "imports"⟩,
              ⟨"fb", "fa", "imports"⟩, ⟨"fc", "fa", "imports"⟩] }

/-- C3: `findCircularDependencies` enumerates cycles of the file-level
imports graph by DFS with a recursion stack; every reported cycle has length
at least 2; two files importing each other yield exactly one cycle of length
2 listing both paths; and two cycles sharing a node are reported
separately. -/
theorem C3_theorem :
    (∀ (s : Store) (c : List String), c ∈ findCircularDependencies s → 2 ≤ c.length) ∧
    findCircularDependencies twoFileStore = [["a.ts", "b.ts"]] ∧
    findCircularDependencies sharedCycleStore = [["a.ts", "b.ts"], ["a.ts", "c.ts"]] := by
  refine ⟨?_, by decide, by decide⟩
  intro s c hc
  unfold findCircularDependencies at hc
  suffices hgen : ∀ (fs : List String) (st : CDState),
      (∀ c' ∈ st.cycles, 2 ≤ c'.length) →
      ∀ c' ∈ (fs.foldl
        (fun st f => if f ∈ st.visited then st
                     else dfsCD s (s.files.length + s.nodes.length + 1) f [] st)
        st).cycles, 2 ≤ c'.length by
    exact hgen s.files _ (by simp) c hc
  intro fs
  induction fs with
  | nil => intro st hst c' hc'; rw [List.foldl_nil] at hc'; exact hst c' hc'
  | cons f rest ihf =>
    intro st hst c' hc'
    rw [List.foldl_cons] at hc'
    refine ihf _ ?_ c' hc'
    by_cases hv : f ∈ st.visited
    · rw [if_pos hv]; exact hst
    · rw [if_neg hv]
      exact dfsCD_cycles_length s _ f [] st hst (fun l hl => by simp at hl)

/-- C3 witness: the general length bound applied to the cycle found in the
two-file store. -/
theorem C3_witness :
    ["a.ts", "b.ts"] ∈ findCircularDependencies twoFileStore ∧
      2 ≤ (["a.ts", "b.ts"] : List String).length :=
  ⟨by decide, C3_theorem.1 twoFileStore ["a.ts", "b.ts"] (by decide)⟩

/-! ## Go framework route extraction ( `resolution/frameworks/go.ts`,
`goResolver.extractNodes` )

The four route regexes of `extractNodes` are embedded as character-list
scanners with the same semantics: leftmost match, greedy whitespace and
path runs, resume past each match.  `\s` is modelled by its ASCII
members, which the greedy runs make exact for ASCII content. -/

/-- ASCII whitespace as matched by the JavaScript `\s` class. -/
def isJsSpace (c : Char) : Bool :=
  c = ' ' || c = '\t' || c = '\n' || c = '\r' || c = '\x0b' || c = '\x0c'

/-- Quote class `["']`. -/
def isQuote (c : Char) : Bool :=
  c = '"' || c = '\''

/-- First alternative of `methods` that prefixes `cs`, with the remainder. -/
def matchAlt (methods : List String) (cs : List Char) : Option (String × List Char) :=
  match methods with
  | [] => none
  | m :: rest =>
    if m.data.isPrefixOf cs then some (m, cs.drop m.data.length)
    else matchAlt rest cs

/-- Try the route pattern
`lead \s* (METHOD) \s* ( \s* ["'] ([^"']+) ["']` at the head of `cs`
(`METHOD` omitted when `methods` is empty, as for `http.HandleFunc`).
Returns the method, the path and the number of characters matched. -/
def matchRouteAt (lead : String) (methods : List String) (cs : List Char) :
    Option (String × String × Nat) :=
  match (if lead.data.isPrefixOf cs then some (cs.drop lead.data.length) else none) with
  | none => none
  | some r1 =>
    let r2 := r1.dropWhile isJsSpace
    match (if methods.isEmpty then some ("", r2) else matchAlt methods r2) with
    | none => none
    | some (m, r3) =>
      match r3.dropWhile isJsSpace with
      | '(' :: r5 =>
        match r5.dropWhile isJsSpace with
        | q :: r7 =>
          if isQuote q then
            let pathChars := r7.takeWhile (fun c => !isQuote c)
            match r7.dropWhile (fun c => !isQuote c) with
            | q2 :: r9 =>
              if pathChars.isEmpty then none
              else if isQuote q2 then some (m, String.mk pathChars, cs.length - r9.length)
              else none
            | [] => none
          else none
        | [] => none
      | _ => none

/-- The `exec` loop over `content`: try the pattern at each position,
resuming after the end of every match.  Yields `(index, method, path,
length)` per match; the fuel is the number of remaining positions. -/
def scanRoutes (lead : String) (methods : List String) :
    Nat → List Char → Nat → List (Nat × String × String × Nat)
  | 0, _, _ => []
  | fuel + 1, cs, idx =>
    match cs with
    | [] => []
    | c :: rest =>
      match matchRouteAt lead methods (c :: rest) with
      | some (m, p, len) =>
        (idx, m, p, len) :: scanRoutes lead methods fuel ((c :: rest).drop len) (idx + len)
      | none => scanRoutes lead methods fuel rest (idx + 1)

/-- `content.slice(0, index).split('\n').length`. -/
def lineOfIndex (content : List Char) (idx : Nat) : Nat :=
  ((content.take idx).filter (fun c => c = '\n')).length + 1

/-- One route node as pushed by `extractNodes`:
`id = route:{filePath}:{method}:{path}:{line}` and
`qualifiedName = {filePath}::{method}:{path}`. -/
def mkRouteNode (filePath : String) (content : List Char) (now : Nat)
    (method path : String) (idx matchLen : Nat) : Node :=
  let line := lineOfIndex content idx
  { id := "route:" ++ filePath ++ ":" ++ method ++ ":" ++ path ++ ":" ++ toString line
  , kind := "route"
  , name := method ++ " " ++ path
  , qualifiedName := filePath ++ "::" ++ method ++ ":" ++ path
  , filePath := filePath
  , startLine := line
  , endLine := line
  , startColumn := 0
  , endColumn := matchLen
  , language := "go"
  , updatedAt := now }

/-- ASCII `toUpperCase`. -/
def toUpperStr (s : String) : String :=
  String.mk (s.data.map Char.toUpper)

/-- Nodes for one scanned family, the method rendered through `disp`
(identity for Gin/Echo, uppercase for Chi, constant `ANY` for
`http.HandleFunc`). -/
def routeNodesOf (filePath : String) (content : List Char) (now : Nat)
    (disp : String → String) (ms : List (Nat × String × String × Nat)) : List Node :=
  ms.map (fun t => mkRouteNode filePath content now (disp t.2.1) t.2.2.1 t.1 t.2.2.2)

/-- `goResolver.extractNodes(filePath, content)`, with `Date.now()` passed
in explicitly as `now` (it only feeds `updatedAt`). -/
def goExtractNodes (filePath content : String) (now : Nat) : List Node :=
  let cs := content.data
  routeNodesOf filePath cs now (fun m => m)
      (scanRoutes "." ["GET", "POST", "PUT", "PATCH", "DELETE", "OPTIONS", "HEAD"]
        cs.length cs 0)
    ++ routeNodesOf filePath cs now (fun m => m)
      (scanRoutes "e." ["GET", "POST", "PUT", "PATCH", "DELETE"] cs.length cs 0)
    ++ routeNodesOf filePath cs now toUpperStr
      (scanRoutes "r." ["Get", "Post", "Put", "Patch", "Delete"] cs.length cs 0)
    ++ routeNodesOf filePath cs now (fun _ => "ANY")
      (scanRoutes "http.HandleFunc" [] cs.length cs 0)

/-- Every extracted route node's identifying fields follow one shape: the
qualified name is `filePath::M:P` and the id is
`route:filePath:M:P:startLine` for the same middle part `M:P`. -/
theorem goExtractNodes_shape {fp content : String} {now : Nat} {n : Node}
    (h : n ∈ goExtractNodes fp content now) :
    ∃ mp : String, n.filePath = fp ∧
      n.qualifiedName = n.filePath ++ "::" ++ mp ∧
      n.id = "route:" ++ n.filePath ++ ":" ++ mp ++ ":" ++ toString n.startLine := by
  unfold goExtractNodes at h
  have hshape : ∀ (disp : String → String) (ms : List (Nat × String × String × Nat)),
      n ∈ routeNodesOf fp content.data now disp ms →
      ∃ mp : String, n.filePath = fp ∧
        n.qualifiedName = n.filePath ++ "::" ++ mp ∧
        n.id = "route:" ++ n.filePath ++ ":" ++ mp ++ ":" ++ toString n.startLine := by
    intro disp ms hm
    rw [routeNodesOf, List.mem_map] at hm
    obtain ⟨t, _, ht⟩ := hm
    subst ht
    refine ⟨disp t.2.1 ++ ":" ++ t.2.2.1, rfl, ?_, ?_⟩
    · show fp ++ "::" ++ disp t.2.1 ++ ":" ++ t.2.2.1
        = fp ++ "::" ++ (disp t.2.1 ++ ":" ++ t.2.2.1)
      simp [String.append_assoc]
    · show "route:" ++ fp ++ ":" ++ disp t.2.1 ++ ":" ++ t.2.2.1 ++ ":"
          ++ toString (lineOfIndex content.data t.1)
        = "route:" ++ fp ++ ":" ++ (disp t.2.1 ++ ":" ++ t.2.2.1) ++ ":"
          ++ toString (lineOfIndex content.data t.1)
      simp [String.append_assoc]
  rcases List.mem_append.mp h with h1 | h4
  · rcases List.mem_append.mp h1 with h2 | h3
    · rcases List.mem_append.mp h2 with h5 | h6
      · exact hshape _ _ h5
      · exact hshape _ _ h6
    · exact hshape _ _ h3
  · exact hshape _ _ h4

/-- Cancel a shared prefix of string appends. -/
theorem str_append_left_cancel {a b c : String} (h : a ++ b = a ++ c) : b = c := by
  apply String.ext
  have hd := congrArg String.data h
  rw [String.data_append, String.data_append] at hd
  exact List.append_cancel_left hd

/-- C1: route-node IDs are deterministic — re-extracting the same content
yields the same ID sequence regardless of the wall clock — and each ID is a
function of the node's `(kind, filePath, qualifiedName, startLine)` alone,
across any two extraction runs. -/
theorem C1_theorem :
    (∀ (fp content : String) (now1 now2 : Nat),
      (goExtractNodes fp content now1).map Node.id
        = (goExtractNodes fp content now2).map Node.id) ∧
    (∀ (fp content : String) (now : Nat) (fp2 content2 : String) (now2 : Nat)
      (n1 n2 : Node),
      n1 ∈ goExtractNodes fp content now → n2 ∈ goExtractNodes fp2 content2 now2 →
      n1.kind = n2.kind → n1.filePath = n2.filePath →
      n1.qualifiedName = n2.qualifiedName → n1.startLine = n2.startLine →
      n1.id = n2.id) := by
  constructor
  · intro fp content now1 now2
    simp only [goExtractNodes, routeNodesOf, List.map_append, List.map_map]
    rfl
  · intro fp content now fp2 content2 now2 n1 n2 h1 h2 _ hf hq hs
    obtain ⟨mp1, hfp1, hq1, hid1⟩ := goExtractNodes_shape h1
    obtain ⟨mp2, hfp2, hq2, hid2⟩ := goExtractNodes_shape h2
    have hmp : mp1 = mp2 := by
      rw [hq1, hq2, ← hf] at hq
      exact str_append_left_cancel hq
    rw [hid1, hid2, hmp, hf, hs]

/-- C1 witness: a concrete Gin-style route in a Go source snippet, extracted
at two different clock values; the ID clauses apply with every hypothesis
discharged. -/
theorem C1_witness :
    ((goExtractNodes "main.go" "x.GET(\"/u\", h)" 0).map Node.id
      = (goExtractNodes "main.go" "x.GET(\"/u\", h)" 5).map Node.id) ∧
    (mkRouteNode "main.go" ("x.GET(\"/u\", h)").data 0 "GET" "/u" 1 9).id
      = (mkRouteNode "main.go" ("x.GET(\"/u\", h)").data 5 "GET" "/u" 1 9).id :=
  ⟨C1_theorem.1 "main.go" "x.GET(\"/u\", h)" 0 5,
   C1_theorem.2 "main.go" "x.GET(\"/u\", h)" 0 "main.go" "x.GET(\"/u\", h)" 5 _ _
     (by decide) (by decide) rfl rfl rfl rfl⟩

/-! ## Schema migrations ( `db/migrations.ts` )

The database is modelled as a schema state of arbitrary type `α` together
with the `schema_versions` table; a migration's `up` acts on the schema
state and `recordMigration` appends the `(version, applied_at,
description)` row.  The in-repo `migrations` list is empty, so
`runMigrations` is verified over an arbitrary list. -/

/-- A migration definition. -/
structure Migration (α : Type) where
  version : Nat
  description : String
  up : α → α

/-- The database: schema state plus the `schema_versions` table. -/
structure MigDb (α : Type) where
  schema : α
  schemaVersions : List (Nat × Nat × String)

/-- `CURRENT_SCHEMA_VERSION` from `migrations.ts`. -/
def CURRENT_SCHEMA_VERSION : Nat := 1

/-- `recordMigration`: insert the applied row into `schema_versions`. -/
def recordMigration {α : Type} (db : MigDb α) (now version : Nat)
    (description : String) : MigDb α :=
  { db with schemaVersions := db.schemaVersions ++ [(version, now, description)] }

/-- `getCurrentVersion`: `MAX(version)` over `schema_versions`, 0 when the
table is empty. -/
def getCurrentVersion {α : Type} (db : MigDb α) : Nat :=
  (db.schemaVersions.map (fun r => r.1)).foldl max 0

/-- Version order used by `pending.sort((a, b) => a.version - b.version)`. -/
def migLe {α : Type} (a b : Migration α) : Prop := a.version ≤ b.version

instance {α : Type} : DecidableRel (migLe (α := α)) :=
  fun a b => Nat.decLe a.version b.version

instance {α : Type} : IsTotal (Migration α) migLe :=
  ⟨fun a b => Nat.le_total a.version b.version⟩

instance {α : Type} : IsTrans (Migration α) migLe :=
  ⟨fun _ _ _ => Nat.le_trans⟩

/-- One migration step of the `runMigrations` loop: apply `up` and record
the row, the two together standing for the per-migration transaction. -/
def migStep {α : Type} (now : Nat) (d : MigDb α) (m : Migration α) : MigDb α :=
  recordMigration { d with schema := m.up d.schema } now m.version m.description

/-- `runMigrations(db, fromVersion)`: filter the migrations with version
above `fromVersion`, return early when none, else sort ascending by version
and run each in its own transaction. -/
def runMigrations {α : Type} (migs : List (Migration α)) (db : MigDb α)
    (fromVersion now : Nat) : MigDb α :=
  let pending := migs.filter (fun m => fromVersion < m.version)
  if pending.isEmpty then db
  else (pending.insertionSort migLe).foldl (migStep now) db

/-- Modelled from the spec: the store-open path (§4.A, not among the
sources) rejects a persisted schema version above the binary's current one
and otherwise runs the pending migrations. -/
def openStore {α : Type} (migs : List (Migration α)) (db : MigDb α)
    (currentVersion now : Nat) : Except String (MigDb α) :=
  if currentVersion < getCurrentVersion db then Except.error "downgrade rejected"
  else Except.ok (runMigrations migs db (getCurrentVersion db) now)

theorem migStep_foldl {α : Type} (now : Nat) :
    ∀ (l : List (Migration α)) (d : MigDb α),
      (l.foldl (migStep now) d).schemaVersions
          = d.schemaVersions ++ l.map (fun m => (m.version, now, m.description)) ∧
        (l.foldl (migStep now) d).schema = l.foldl (fun a m => m.up a) d.schema := by
  intro l
  induction l with
  | nil => intro d; simp
  | cons m rest ih =>
    intro d
    rw [List.foldl_cons, List.foldl_cons]
    obtain ⟨h1, h2⟩ := ih (migStep now d m)
    refine ⟨?_, h2⟩
    rw [h1]
    simp [migStep, recordMigration]

/-- C6: `runMigrations` applies exactly the migrations whose version exceeds
`fromVersion`, in ascending version order, each step atomically recording
its row in `schema_versions`; with nothing pending the database is
unchanged; and opening a store whose persisted version exceeds the current
schema version is rejected. -/
theorem C6_theorem :
    (∀ (α : Type) (migs : List (Migration α)) (db : MigDb α) (fromVersion now : Nat),
      (runMigrations migs db fromVersion now).schemaVersions
          = db.schemaVersions
            ++ ((migs.filter (fun m => fromVersion < m.version)).insertionSort migLe).map
              (fun m => (m.version, now, m.description)) ∧
        (runMigrations migs db fromVersion now).schema
          = ((migs.filter (fun m => fromVersion < m.version)).insertionSort migLe).foldl
              (fun a m => m.up a) db.schema) ∧
    (∀ (α : Type) (migs : List (Migration α)) (fromVersion : Nat),
      (((migs.filter (fun m => fromVersion < m.version)).insertionSort migLe).map
          (fun m => m.version)).Sorted (· ≤ ·) ∧
        ∀ m : Migration α,
          m ∈ (migs.filter (fun m => fromVersion < m.version)).insertionSort migLe ↔
            m ∈ migs ∧ fromVersion < m.version) ∧
    (∀ (α : Type) (migs : List (Migration α)) (db : MigDb α) (fromVersion now : Nat),
      (∀ m ∈ migs, m.version ≤ fromVersion) →
        runMigrations migs db fromVersion now = db) ∧
    (∀ (α : Type) (migs : List (Migration α)) (db : MigDb α) (currentVersion now : Nat),
      currentVersion < getCurrentVersion db →
        openStore migs db currentVersion now = Except.error "downgrade rejected") := by
  refine ⟨?_, ?_, ?_, ?_⟩
  · intro α migs db fromVersion now
    unfold runMigrations
    by_cases hp : (migs.filter (fun m => fromVersion < m.version)).isEmpty
    · rw [if_pos hp]
      rw [List.isEmpty_iff] at hp
      rw [hp]
      simp
    · rw [if_neg hp]
      exact migStep_foldl now _ db
  · intro α migs fromVersion
    constructor
    · have hs : ((migs.filter (fun m => fromVersion < m.version)).insertionSort migLe).Sorted
          migLe := List.sorted_insertionSort migLe _
      exact List.Pairwise.map _ (fun a b h => h) hs
    · intro m
      rw [List.Perm.mem_iff (List.perm_insertionSort migLe _), List.mem_filter]
      simp
  · intro α migs db fromVersion now hle
    unfold runMigrations
    have hp : (migs.filter (fun m => fromVersion < m.version)).isEmpty := by
      rw [List.isEmpty_iff, List.filter_eq_nil_iff]
      intro m hm
      simpa using Nat.not_lt.mpr (hle m hm)
    rw [if_pos hp]
  · intro α migs db currentVersion now h
    unfold openStore
    rw [if_pos h]

/-- C6 witness: one migration of version 2 over a list-of-strings schema;
nothing pending at `fromVersion = 5`, and opening with a current version
below the persisted maximum is rejected. -/
theorem C6_witness :
    (runMigrations [⟨2, "add", fun s => s ++ ["v2"]⟩]
        (⟨[], [(1, 0, "init")]⟩ : MigDb (List String)) 5 7
      = ⟨[], [(1, 0, "init")]⟩) ∧
    (openStore [⟨2, "add", fun s => s ++ ["v2"]⟩]
        (⟨[], [(1, 0, "init")]⟩ : MigDb (List String)) 0 7
      = Except.error "downgrade rejected") :=
  ⟨C6_theorem.2.2.1 (List String) _ _ 5 7 (by
      intro m hm
      rcases List.mem_singleton.mp hm with rfl
      decide),
   C6_theorem.2.2.2 (List String) _ _ 0 7 (by decide)⟩

/-! ## Cosine similarity ( `vectors/embedder.ts`,
`TextEmbedder.cosineSimilarity` )

Modelled from the spec: `cosine(a, b) = dot(a,b) / (||a||·||b||)`, returning
0 when either vector is the zero vector and failing when the dimensions
differ (`embedder.ts` itself is not among the sources; its `Float32Array`
arithmetic is modelled by exact reals). -/

/-- Dot product of two equal-length real vectors. -/
def dot : List ℝ → List ℝ → ℝ
  | x :: xs, y :: ys => x * y + dot xs ys
  | _, _ => 0

/-- Modelled from the spec: the cosine value
`dot(a,b) / (||a||·||b||)`, 0 when either vector is zero. -/
noncomputable def cosineRaw (a b : List ℝ) : ℝ :=
  if dot a a = 0 ∨ dot b b = 0 then 0
  else dot a b / (Real.sqrt (dot a a) * Real.sqrt (dot b b))

/-- Modelled from the spec: `cosineSimilarity` throws on mismatched
dimensions, with the message asserted by the tests. -/
noncomputable def cosineSimilarity (a b : List ℝ) : Except String ℝ :=
  if a.length ≠ b.length then Except.error "Embeddings must have the same dimension"
  else Except.ok (cosineRaw a b)

theorem dot_nil_left (b : List ℝ) : dot [] b = 0 := by cases b <;> rfl

theorem dot_nil_right (a : List ℝ) : dot a [] = 0 := by cases a <;> rfl

theorem dot_self_nonneg (v : List ℝ) : 0 ≤ dot v v := by
  induction v with
  | nil => exact le_refl 0
  | cons x xs ih =>
    rw [dot]
    exact add_nonneg (mul_self_nonneg x) ih

theorem dot_self_eq_zero_iff (v : List ℝ) : dot v v = 0 ↔ ∀ x ∈ v, x = 0 := by
  induction v with
  | nil => simp [dot_nil_left]
  | cons x xs ih =>
    rw [dot, add_eq_zero_iff_of_nonneg (mul_self_nonneg x) (dot_self_nonneg xs)]
    simp [mul_self_eq_zero, ih]

theorem dot_map_neg_right (a : List ℝ) : ∀ b : List ℝ,
    dot a (b.map (fun x => -x)) = -(dot a b) := by
  induction a with
  | nil => intro b; rw [dot_nil_left, dot_nil_left, neg_zero]
  | cons x xs ih =>
    intro b
    cases b with
    | nil => simp [dot_nil_right]
    | cons y ys =>
      rw [List.map_cons, dot, dot, ih ys]
      ring

theorem dot_map_neg_left (a : List ℝ) : ∀ b : List ℝ,
    dot (a.map (fun x => -x)) b = -(dot a b) := by
  induction a with
  | nil => intro b; simp [dot_nil_left]
  | cons x xs ih =>
    intro b
    cases b with
    | nil => simp [dot_nil_right]
    | cons y ys =>
      rw [List.map_cons, dot, dot, ih ys]
      ring

/-- C4: `cosineSimilarity(v, v) = 1` and `cosineSimilarity(v, -v) = -1` for
every nonzero `v`; the result is 0 whenever either argument is the zero
vector of the shared dimension; and mismatched dimensions fail with the
dimension error. -/
theorem C4_theorem :
    (∀ v : List ℝ, (∃ x ∈ v, x ≠ 0) → cosineSimilarity v v = Except.ok 1) ∧
    (∀ v : List ℝ, (∃ x ∈ v, x ≠ 0) →
      cosineSimilarity v (v.map (fun x => -x)) = Except.ok (-1)) ∧
    (∀ v w : List ℝ, v.length = w.length → (∀ x ∈ v, x = 0) →
      cosineSimilarity v w = Except.ok 0 ∧ cosineSimilarity w v = Except.ok 0) ∧
    (∀ v w : List ℝ, v.length ≠ w.length →
      cosineSimilarity v w = Except.error "Embeddings must have the same dimension") := by
  have hnz : ∀ v : List ℝ, (∃ x ∈ v, x ≠ 0) → dot v v ≠ 0 := by
    intro v hv h0
    obtain ⟨x, hx, hxne⟩ := hv
    exact hxne ((dot_self_eq_zero_iff v).mp h0 x hx)
  refine ⟨?_, ?_, ?_, ?_⟩
  · intro v hv
    rw [cosineSimilarity, if_neg (by simp), cosineRaw,
        if_neg (by simpa using hnz v hv),
        Real.mul_self_sqrt (dot_self_nonneg v), div_self (hnz v hv)]
  · intro v hv
    have hm : dot (v.map (fun x => -x)) (v.map (fun x => -x)) = dot v v := by
      rw [dot_map_neg_left, dot_map_neg_right]
      ring
    rw [cosineSimilarity, if_neg (by simp), cosineRaw, hm,
        if_neg (by simpa using hnz v hv), dot_map_neg_right,
        Real.mul_self_sqrt (dot_self_nonneg v), neg_div, div_self (hnz v hv)]
  · intro v w hlen hzero
    have h0 : dot v v = 0 := (dot_self_eq_zero_iff v).mpr hzero
    constructor
    · rw [cosineSimilarity, if_neg (by simp [hlen]), cosineRaw, if_pos (Or.inl h0)]
    · rw [cosineSimilarity, if_neg (by simp [hlen]), cosineRaw, if_pos (Or.inr h0)]
  · intro v w hlen
    rw [cosineSimilarity, if_pos hlen]

/-- C4 witness: the four clauses at the concrete vectors `(1,0)`, `(0,0)`
and a 3-vs-2 dimension mismatch. -/
theorem C4_witness :
    cosineSimilarity [(1 : ℝ), 0] [(1 : ℝ), 0] = Except.ok 1 ∧
    cosineSimilarity [(1 : ℝ), 0] ([(1 : ℝ), 0].map (fun x => -x)) = Except.ok (-1) ∧
    cosineSimilarity [(0 : ℝ), 0] [(3 : ℝ), 4] = Except.ok 0 ∧
    cosineSimilarity [(1 : ℝ), 2, 3] [(1 : ℝ), 2]
      = Except.error "Embeddings must have the same dimension" :=
  ⟨C4_theorem.1 [(1 : ℝ), 0] ⟨1, by simp, one_ne_zero⟩,
   C4_theorem.2.1 [(1 : ℝ), 0] ⟨1, by simp, one_ne_zero⟩,
   (C4_theorem.2.2.1 [(0 : ℝ), 0] [(3 : ℝ), 4] (by simp)
     (by intro x hx; simpa using hx)).1,
   C4_theorem.2.2.2 [(1 : ℝ), 2, 3] [(1 : ℝ), 2] (by simp)⟩

/-! ## Brute-force vector search ( `vectors/search.ts`,
`VectorSearchManager.search` )

Modelled from the spec: cosine against every stored vector, sorted
descending by score (a stable insertion sort standing in for the
JavaScript comparator sort), filtered by `minScore`, truncated to
`limit` (`search.ts` is not among the sources). -/

/-- A stored vector entry. -/
structure VecEntry where
  nodeId : String
  embedding : List ℝ

/-- One search result. -/
structure SearchResult where
  nodeId : String
  score : ℝ

/-- Stable descending insertion by score. -/
noncomputable def insertDesc (x : SearchResult) : List SearchResult → List SearchResult
  | [] => [x]
  | y :: ys => if y.score < x.score then x :: y :: ys else y :: insertDesc x ys

/-- Sort descending by score. -/
noncomputable def sortDesc (l : List SearchResult) : List SearchResult :=
  l.foldr insertDesc []

/-- Modelled from the spec: `search(query, {limit, minScore})`. -/
noncomputable def search (stored : List VecEntry) (query : List ℝ)
    (limit : Nat) (minScore : ℝ) : List SearchResult :=
  ((sortDesc (stored.map (fun e => SearchResult.mk e.nodeId (cosineRaw query e.embedding)))).filter
    (fun r => minScore ≤ r.score)).take limit

theorem mem_insertDesc {x y : SearchResult} : ∀ {l : List SearchResult},
    y ∈ insertDesc x l ↔ y = x ∨ y ∈ l := by
  intro l
  induction l with
  | nil => simp [insertDesc]
  | cons z zs ih =>
    rw [insertDesc]
    by_cases h : z.score < x.score
    · rw [if_pos h]
      simp
    · rw [if_neg h]
      simp only [List.mem_cons, ih]
      tauto

theorem mem_sortDesc {y : SearchResult} : ∀ {l : List SearchResult},
    y ∈ sortDesc l ↔ y ∈ l := by
  intro l
  induction l with
  | nil => simp [sortDesc]
  | cons z zs ih =>
    show y ∈ insertDesc z (sortDesc zs) ↔ _
    rw [mem_insertDesc, ih]
    simp

theorem pairwise_insertDesc {x : SearchResult} : ∀ {l : List SearchResult},
    l.Pairwise (fun a b => b.score ≤ a.score) →
    (insertDesc x l).Pairwise (fun a b => b.score ≤ a.score) := by
  intro l
  induction l with
  | nil => intro _; simp [insertDesc]
  | cons z zs ih =>
    intro h
    rw [List.pairwise_cons] at h
    obtain ⟨hz, hzs⟩ := h
    rw [insertDesc]
    by_cases hlt : z.score < x.score
    · rw [if_pos hlt, List.pairwise_cons]
      refine ⟨?_, List.pairwise_cons.mpr ⟨hz, hzs⟩⟩
      intro b hb
      rcases List.mem_cons.mp hb with rfl | hb2
      · exact le_of_lt hlt
      · exact le_trans (hz b hb2) (le_of_lt hlt)
    · rw [if_neg hlt, List.pairwise_cons]
      refine ⟨?_, ih hzs⟩
      intro b hb
      rcases mem_insertDesc.mp hb with rfl | hb2
      · exact not_lt.mp hlt
      · exact hz b hb2

theorem pairwise_sortDesc : ∀ (l : List SearchResult),
    (sortDesc l).Pairwise (fun a b => b.score ≤ a.score) := by
  intro l
  induction l with
  | nil => simp [sortDesc]
  | cons z zs ih => exact pairwise_insertDesc ih

/-- The stored vectors of scenario S6. -/
def storedS6 : List VecEntry :=
  [⟨"node1", [1, 0, 0]⟩, ⟨"node2", [0.9, 0.1, 0]⟩, ⟨"node3", [0, 1, 0]⟩]

theorem sqrt82_pos : (0 : ℝ) < Real.sqrt 0.82 :=
  Real.sqrt_pos.mpr (by norm_num)

theorem sqrt82_le_one : Real.sqrt 0.82 ≤ 1 :=
  Real.sqrt_le_one.mpr (by norm_num)

theorem scoreB_pos : (0 : ℝ) < 0.9 / Real.sqrt 0.82 :=
  div_pos (by norm_num) sqrt82_pos

theorem scoreB_lt_one : 0.9 / Real.sqrt 0.82 < 1 := by
  rw [div_lt_one sqrt82_pos]
  nlinarith [Real.sq_sqrt (show (0 : ℝ) ≤ 0.82 by norm_num), sqrt82_pos]

theorem scoreB_ge_half : (0.5 : ℝ) ≤ 0.9 / Real.sqrt 0.82 := by
  rw [le_div_iff₀ sqrt82_pos]
  nlinarith [sqrt82_le_one]

theorem cosS6_a : cosineRaw [(1 : ℝ), 0, 0] [(1 : ℝ), 0, 0] = 1 := by
  have hq : dot [(1 : ℝ), 0, 0] [(1 : ℝ), 0, 0] = 1 := by
    norm_num [dot, dot_nil_left]
  rw [cosineRaw, if_neg (by rw [hq]; norm_num), hq, Real.sqrt_one]
  norm_num

theorem cosS6_b : cosineRaw [(1 : ℝ), 0, 0] [(0.9 : ℝ), 0.1, 0] = 0.9 / Real.sqrt 0.82 := by
  have hq : dot [(1 : ℝ), 0, 0] [(1 : ℝ), 0, 0] = 1 := by
    norm_num [dot, dot_nil_left]
  have hb : dot [(0.9 : ℝ), 0.1, 0] [(0.9 : ℝ), 0.1, 0] = 0.82 := by
    norm_num [dot, dot_nil_left]
  have hqb : dot [(1 : ℝ), 0, 0] [(0.9 : ℝ), 0.1, 0] = 0.9 := by
    norm_num [dot, dot_nil_left]
  rw [cosineRaw, if_neg (by rw [hq, hb]; norm_num), hq, hb, hqb, Real.sqrt_one, one_mul]

theorem cosS6_c : cosineRaw [(1 : ℝ), 0, 0] [(0 : ℝ), 1, 0] = 0 := by
  have hq : dot [(1 : ℝ), 0, 0] [(1 : ℝ), 0, 0] = 1 := by
    norm_num [dot, dot_nil_left]
  have hc : dot [(0 : ℝ), 1, 0] [(0 : ℝ), 1, 0] = 1 := by
    norm_num [dot, dot_nil_left]
  have hqc : dot [(1 : ℝ), 0, 0] [(0 : ℝ), 1, 0] = 0 := by
    norm_num [dot, dot_nil_left]
  rw [cosineRaw, if_neg (by rw [hq, hc]; norm_num), hqc, zero_div]

theorem sortedS6_eval :
    sortDesc (storedS6.map
        (fun e => SearchResult.mk e.nodeId (cosineRaw [(1 : ℝ), 0, 0] e.embedding)))
      = [⟨"node1", 1⟩, ⟨"node2", 0.9 / Real.sqrt 0.82⟩, ⟨"node3", 0⟩] := by
  have hmap : storedS6.map
      (fun e => SearchResult.mk e.nodeId (cosineRaw [(1 : ℝ), 0, 0] e.embedding))
      = [⟨"node1", 1⟩, ⟨"node2", 0.9 / Real.sqrt 0.82⟩, ⟨"node3", 0⟩] := by
    rw [storedS6, List.map_cons, List.map_cons, List.map_cons, List.map_nil]
    rw [show cosineRaw [(1 : ℝ), 0, 0]
        (VecEntry.mk "node1" [1, 0, 0]).embedding = 1 from cosS6_a]
    rw [show cosineRaw [(1 : ℝ), 0, 0]
        (VecEntry.mk "node2" [0.9, 0.1, 0]).embedding = 0.9 / Real.sqrt 0.82 from cosS6_b]
    rw [show cosineRaw [(1 : ℝ), 0, 0]
        (VecEntry.mk "node3" [0, 1, 0]).embedding = 0 from cosS6_c]
  rw [hmap]
  show insertDesc ⟨"node1", 1⟩ (insertDesc ⟨"node2", 0.9 / Real.sqrt 0.82⟩
      (insertDesc ⟨"node3", 0⟩ [])) = _
  rw [show insertDesc (⟨"node3", 0⟩ : SearchResult) [] = [⟨"node3", 0⟩] from rfl]
  rw [show insertDesc (⟨"node2", 0.9 / Real.sqrt 0.82⟩ : SearchResult) [⟨"node3", 0⟩]
      = [⟨"node2", 0.9 / Real.sqrt 0.82⟩, ⟨"node3", 0⟩] by
    rw [insertDesc, if_pos scoreB_pos]]
  rw [show insertDesc (⟨"node1", 1⟩ : SearchResult)
        [⟨"node2", 0.9 / Real.sqrt 0.82⟩, ⟨"node3", 0⟩]
      = [⟨"node1", 1⟩, ⟨"node2", 0.9 / Real.sqrt 0.82⟩, ⟨"node3", 0⟩] by
    rw [insertDesc, if_pos scoreB_lt_one]]

theorem searchS6_limit3 :
    search storedS6 [(1 : ℝ), 0, 0] 3 0
      = [⟨"node1", 1⟩, ⟨"node2", 0.9 / Real.sqrt 0.82⟩, ⟨"node3", 0⟩] := by
  rw [search, sortedS6_eval]
  have hd1 : (decide ((0 : ℝ) ≤ 1)) = true := decide_eq_true (by norm_num)
  have hd2 : (decide ((0 : ℝ) ≤ 0.9 / Real.sqrt 0.82)) = true :=
    decide_eq_true (le_of_lt scoreB_pos)
  have hd3 : (decide ((0 : ℝ) ≤ 0)) = true := decide_eq_true (le_refl (0 : ℝ))
  simp only [List.filter_cons, List.filter_nil, hd1, hd2, hd3, if_true]
  rfl

theorem searchS6_minScore :
    search storedS6 [(1 : ℝ), 0, 0] 10 0.5
      = [⟨"node1", 1⟩, ⟨"node2", 0.9 / Real.sqrt 0.82⟩] := by
  rw [search, sortedS6_eval]
  have hd1 : (decide ((0.5 : ℝ) ≤ 1)) = true := decide_eq_true (by norm_num)
  have hd2 : (decide ((0.5 : ℝ) ≤ 0.9 / Real.sqrt 0.82)) = true :=
    decide_eq_true scoreB_ge_half
  have hd3 : (decide ((0.5 : ℝ) ≤ 0)) = false := decide_eq_false (by norm_num)
  simp only [List.filter_cons, List.filter_nil, hd1, hd2, hd3, if_true, if_false]
  rfl

/-- C5: `search` scores the query against every stored vector, returns the
results sorted by descending score, drops scores below `minScore`, returns
at most `limit` results — with every qualifying vector included when the
limit is not reached — and on the S6 vectors returns `[a, b, c]` with `a`
scored exactly 1, and `[a, b]` when `minScore = 0.5`. -/
theorem C5_theorem :
    (∀ (stored : List VecEntry) (query : List ℝ) (limit : Nat) (minScore : ℝ),
      (search stored query limit minScore).Pairwise (fun a b => b.score ≤ a.score) ∧
      (∀ r ∈ search stored query limit minScore,
        minScore ≤ r.score ∧
          ∃ e ∈ stored, r.nodeId = e.nodeId ∧ r.score = cosineRaw query e.embedding) ∧
      (search stored query limit minScore).length ≤ limit ∧
      ((search stored query limit minScore).length < limit →
        ∀ e ∈ stored, minScore ≤ cosineRaw query e.embedding →
          (⟨e.nodeId, cosineRaw query e.embedding⟩ : SearchResult)
            ∈ search stored query limit minScore)) ∧
    ((search storedS6 [(1 : ℝ), 0, 0] 3 0).map SearchResult.nodeId
        = ["node1", "node2", "node3"] ∧
      (search storedS6 [(1 : ℝ), 0, 0] 3 0).head?.map SearchResult.score = some 1 ∧
      (search storedS6 [(1 : ℝ), 0, 0] 10 0.5).map SearchResult.nodeId
        = ["node1", "node2"]) := by
  constructor
  · intro stored query limit minScore
    refine ⟨?_, ?_, ?_, ?_⟩
    · exact List.Pairwise.sublist (List.take_sublist _ _)
        (List.Pairwise.filter _ (pairwise_sortDesc _))
    · intro r hr
      have hf := List.mem_of_mem_take hr
      rw [List.mem_filter] at hf
      obtain ⟨hs, hdec⟩ := hf
      rw [mem_sortDesc, List.mem_map] at hs
      obtain ⟨e, he, heq⟩ := hs
      subst heq
      exact ⟨of_decide_eq_true hdec, e, he, rfl, rfl⟩
    · exact List.length_take_le _ _
    · intro hlen e he hsc
      set fl := (sortDesc (stored.map
        (fun e => SearchResult.mk e.nodeId (cosineRaw query e.embedding)))).filter
          (fun r => minScore ≤ r.score) with hfl
      have hfle : fl.length ≤ limit := by
        by_contra hgt
        push_neg at hgt
        have : (search stored query limit minScore).length = limit := by
          rw [search, ← hfl, List.length_take, Nat.min_eq_left (le_of_lt hgt)]
        omega
      have htake : search stored query limit minScore = fl := by
        rw [search, ← hfl, List.take_of_length_le hfle]
      rw [htake, hfl, List.mem_filter]
      refine ⟨?_, decide_eq_true hsc⟩
      rw [mem_sortDesc, List.mem_map]
      exact ⟨e, he, rfl⟩
  · refine ⟨?_, ?_, ?_⟩
    · rw [searchS6_limit3]; rfl
    · rw [searchS6_limit3]; rfl
    · rw [searchS6_minScore]; rfl

/-- C5 witness: the score/provenance clause applied to the top S6 result. -/
theorem C5_witness :
    (⟨"node1", (1 : ℝ)⟩ : SearchResult) ∈ search storedS6 [(1 : ℝ), 0, 0] 3 0 ∧
      ((0 : ℝ) ≤ (1 : ℝ) ∧ ∃ e ∈ storedS6, ("node1" : String) = e.nodeId ∧
        (1 : ℝ) = cosineRaw [(1 : ℝ), 0, 0] e.embedding) :=
  have hmem : (⟨"node1", (1 : ℝ)⟩ : SearchResult) ∈ search storedS6 [(1 : ℝ), 0, 0] 3 0 := by
    rw [searchS6_limit3]
    exact List.mem_cons_self _ _
  ⟨hmem, (C5_theorem.1 storedS6 [(1 : ℝ), 0, 0] 3 0).2.1 ⟨"node1", 1⟩ hmem⟩

/-! ## Incremental sync ( §4.H; `sync` is exercised by
`__tests__/sync.test.ts` and modelled from the spec )

Modelled from the spec: the sync module itself is not among the sources,
only its tests are.  The disk is an association list `path ↦ content`, the
store keeps file records `path ↦ contentHash` plus the node table, and the
byte hash is an arbitrary function parameter.  The extractor is a parameter
whose nodes carry the extracted file's path. -/

/-- A store file record: relative path and content hash. -/
structure FileRec where
  path : String
  hash : String
deriving DecidableEq, Repr

/-- The store slice sync operates on: file records and nodes. -/
structure SyncStore where
  files : List FileRec
  nodes : List Node
deriving DecidableEq, Repr

/-- The change sets of `getChangedFiles()`. -/
structure Changes where
  added : List String
  modified : List String
  removed : List String
  unchanged : List String
deriving DecidableEq, Repr

/-- The sync summary record. -/
structure SyncSummary where
  filesAdded : Nat
  filesModified : Nat
  filesRemoved : Nat
  filesChecked : Nat
deriving DecidableEq, Repr

/-- Content of a path on disk. -/
def diskLookup (disk : List (String × String)) (p : String) : Option String :=
  disk.lookup p

/-- Stored content hash of a path, if the store has its file record. -/
def storeHash (st : SyncStore) (p : String) : Option String :=
  (st.files.find? (fun r => r.path == p)).map (fun r => r.hash)

/-- Modelled from the spec: partition the candidate files into added (on
disk, not in store), modified (hash changed), removed (in store, not on
disk) and unchanged. -/
def getChangedFiles (hash : String → String) (disk : List (String × String))
    (st : SyncStore) : Changes :=
  { added := (disk.filter (fun pc => (storeHash st pc.1).isNone)).map (fun pc => pc.1)
  , modified := (disk.filter (fun pc =>
      match storeHash st pc.1 with
      | some h => h != hash pc.2
      | none => false)).map (fun pc => pc.1)
  , removed := (st.files.filter (fun r => (diskLookup disk r.path).isNone)).map
      (fun r => r.path)
  , unchanged := (disk.filter (fun pc =>
      match storeHash st pc.1 with
      | some h => h == hash pc.2
      | none => false)).map (fun pc => pc.1) }

/-- `deleteFile(path)` with its cascade to the nodes of the file. -/
def deleteFileStore (st : SyncStore) (p : String) : SyncStore :=
  { files := st.files.filter (fun r => r.path != p)
  , nodes := st.nodes.filter (fun n => n.filePath != p) }

/-- Re-index one file: drop its previous slice, extract afresh, upsert the
file record with the new hash. -/
def reindexFile (extract : String → String → List Node) (hash : String → String)
    (st : SyncStore) (p c : String) : SyncStore :=
  { files := st.files.filter (fun r => r.path != p) ++ [⟨p, hash c⟩]
  , nodes := st.nodes.filter (fun n => n.filePath != p) ++ extract p c }

/-- One touched file of the re-index phase: look the content up on disk and
re-index (a path of the added/modified sets is always present). -/
def syncStep (extract : String → String → List Node) (hash : String → String)
    (disk : List (String × String)) (s : SyncStore) (p : String) : SyncStore :=
  match diskLookup disk p with
  | some c => reindexFile extract hash s p c
  | none => s

/-- Modelled from the spec: `sync()` — delete the removed files, re-index
the added and modified ones, return the summary counts. -/
def sync (extract : String → String → List Node) (hash : String → String)
    (disk : List (String × String)) (st : SyncStore) : SyncStore × SyncSummary :=
  let ch := getChangedFiles hash disk st
  let st1 := ch.removed.foldl deleteFileStore st
  let st2 := (ch.added ++ ch.modified).foldl (syncStep extract hash disk) st1
  (st2, ⟨ch.added.length, ch.modified.length, ch.removed.length, disk.length⟩)

/-- Name-based node search over the store. -/
def searchNodes (st : SyncStore) (nm : String) : List Node :=
  st.nodes.filter (fun n => n.name == nm)

theorem lookup_eq_some_of_mem_nodup :
    ∀ {disk : List (String × String)} {p c : String},
      (disk.map Prod.fst).Nodup → (p, c) ∈ disk → disk.lookup p = some c := by
  intro disk
  induction disk with
  | nil => intro p c _ h; exact absurd h (List.not_mem_nil _)
  | cons qd rest ih =>
    intro p c hnd hm
    rw [List.map_cons, List.nodup_cons] at hnd
    obtain ⟨hq, hrest⟩ := hnd
    rcases List.mem_cons.mp hm with rfl | hm2
    · show List.lookup p ((p, c) :: rest) = some c
      simp [List.lookup]
    · have hne : p ≠ qd.1 := by
        intro hpq
        exact hq (hpq ▸ List.mem_map_of_mem Prod.fst hm2)
      have : (p == qd.1) = false := by
        simp [beq_iff_eq]
        exact hne
      obtain ⟨q, d⟩ := qd
      simp only [List.lookup, this]
      exact ih hrest hm2

theorem mem_of_lookup_eq_some :
    ∀ {disk : List (String × String)} {p c : String},
      disk.lookup p = some c → (p, c) ∈ disk := by
  intro disk
  induction disk with
  | nil => intro p c h; exact absurd h (by simp [List.lookup])
  | cons qd rest ih =>
    intro p c h
    obtain ⟨q, d⟩ := qd
    by_cases hpq : p = q
    · subst hpq
      simp only [List.lookup, beq_self_eq_true] at h
      cases h
      exact List.mem_cons_self _ _
    · have : (p == q) = false := by
        simp [beq_iff_eq]
        exact hpq
      simp only [List.lookup, this] at h
      exact List.mem_cons_of_mem _ (ih h)

theorem mem_added_iff {hash : String → String} {disk : List (String × String)}
    {st : SyncStore} {p : String} :
    p ∈ (getChangedFiles hash disk st).added ↔
      (∃ c, (p, c) ∈ disk) ∧ storeHash st p = none := by
  unfold getChangedFiles
  simp only [List.mem_map, List.mem_filter]
  constructor
  · rintro ⟨⟨q, cc⟩, ⟨hmem, hcond⟩, rfl⟩
    exact ⟨⟨cc, hmem⟩, Option.isNone_iff_eq_none.mp hcond⟩
  · rintro ⟨⟨c, hmem⟩, hnone⟩
    exact ⟨(p, c), ⟨hmem, by simp [hnone]⟩, rfl⟩

theorem mem_modified_iff {hash : String → String} {disk : List (String × String)}
    {st : SyncStore} {p : String} :
    p ∈ (getChangedFiles hash disk st).modified ↔
      ∃ c h, (p, c) ∈ disk ∧ storeHash st p = some h ∧ h ≠ hash c := by
  unfold getChangedFiles
  simp only [List.mem_map, List.mem_filter]
  constructor
  · rintro ⟨⟨q, cc⟩, ⟨hmem, hcond⟩, rfl⟩
    cases hsh : storeHash st q with
    | none => rw [hsh] at hcond; exact absurd hcond (by simp)
    | some h =>
      rw [hsh] at hcond
      simp only [bne_iff_ne, ne_eq, decide_eq_true_eq] at hcond
      exact ⟨cc, h, hmem, rfl, by simpa using hcond⟩
  · rintro ⟨c, h, hmem, hsh, hne⟩
    refine ⟨(p, c), ⟨hmem, ?_⟩, rfl⟩
    show (match storeHash st p with
      | some h => h != hash c
      | none => false) = true
    rw [hsh]
    simpa using hne

theorem mem_removed_iff {hash : String → String} {disk : List (String × String)}
    {st : SyncStore} {p : String} :
    p ∈ (getChangedFiles hash disk st).removed ↔
      (∃ r ∈ st.files, r.path = p) ∧ diskLookup disk p = none := by
  unfold getChangedFiles
  simp only [List.mem_map, List.mem_filter]
  constructor
  · rintro ⟨r, ⟨hmem, hcond⟩, rfl⟩
    exact ⟨⟨r, hmem, rfl⟩, Option.isNone_iff_eq_none.mp hcond⟩
  · rintro ⟨⟨r, hmem, rfl⟩, hnone⟩
    exact ⟨r, ⟨hmem, by simp [hnone]⟩, rfl⟩

theorem filter_syncStep_ne {extract : String → String → List Node}
    {hash : String → String} {disk : List (String × String)} {p q : String}
    {s : SyncStore}
    (hext : ∀ q2 c n, n ∈ extract q2 c → n.filePath = q2) (hne : q ≠ p) :
    (syncStep extract hash disk s q).nodes.filter (fun n => n.filePath == p)
      = s.nodes.filter (fun n => n.filePath == p) := by
  unfold syncStep
  cases hl : diskLookup disk q with
  | none => rfl
  | some c =>
    show ((s.nodes.filter (fun n => n.filePath != q) ++ extract q c).filter
      (fun n => n.filePath == p)) = _
    rw [List.filter_append, List.filter_filter]
    have h1 : (s.nodes.filter fun n => (n.filePath == p) && (n.filePath != q))
        = s.nodes.filter (fun n => n.filePath == p) := by
      apply List.filter_congr
      intro n _
      by_cases hp : n.filePath = p
      · have : (n.filePath != q) = true := by
          simp [bne_iff_ne, hp]
          exact Ne.symm hne
        rw [this, Bool.and_true]
      · have : (n.filePath == p) = false := by
          simp [beq_iff_eq]
          exact hp
        rw [this, Bool.false_and]
    have h2 : (extract q c).filter (fun n => n.filePath == p) = [] := by
      rw [List.filter_eq_nil_iff]
      intro n hn
      have := hext q c n hn
      simp [this, beq_iff_eq]
      exact hne
    rw [h1, h2, List.append_nil]

theorem filter_syncStep_eq {extract : String → String → List Node}
    {hash : String → String} {disk : List (String × String)} {p c : String}
    {s : SyncStore}
    (hext : ∀ q2 c2 n, n ∈ extract q2 c2 → n.filePath = q2)
    (hl : diskLookup disk p = some c) :
    (syncStep extract hash disk s p).nodes.filter (fun n => n.filePath == p)
      = extract p c := by
  unfold syncStep
  rw [hl]
  show ((s.nodes.filter (fun n => n.filePath != p) ++ extract p c).filter
    (fun n => n.filePath == p)) = _
  rw [List.filter_append, List.filter_filter]
  have h1 : (s.nodes.filter fun n => (n.filePath == p) && (n.filePath != p)) = [] := by
    rw [List.filter_eq_nil_iff]
    intro n _
    by_cases hp : n.filePath = p
    · simp [hp]
    · simp [beq_iff_eq, hp]
  have h2 : (extract p c).filter (fun n => n.filePath == p) = extract p c := by
    rw [List.filter_eq_self]
    intro n hn
    simp [beq_iff_eq]
    exact hext p c n hn
  rw [h1, h2, List.nil_append]

theorem filter_foldl_syncStep_not_mem {extract : String → String → List Node}
    {hash : String → String} {disk : List (String × String)} {p : String}
    (hext : ∀ q2 c2 n, n ∈ extract q2 c2 → n.filePath = q2) :
    ∀ (qs : List String) (s : SyncStore), p ∉ qs →
      ((qs.foldl (syncStep extract hash disk) s).nodes.filter
        (fun n => n.filePath == p)) = s.nodes.filter (fun n => n.filePath == p) := by
  intro qs
  induction qs with
  | nil => intro s _; rfl
  | cons q rest ih =>
    intro s hq
    rw [List.foldl_cons, ih _ (fun hr => hq (List.mem_cons_of_mem q hr)),
        filter_syncStep_ne hext (fun hqp => hq (by rw [← hqp]; exact List.mem_cons_self q rest))]

theorem filter_foldl_syncStep_mem {extract : String → String → List Node}
    {hash : String → String} {disk : List (String × String)} {p c : String}
    (hext : ∀ q2 c2 n, n ∈ extract q2 c2 → n.filePath = q2)
    (hl : diskLookup disk p = some c) :
    ∀ (qs : List String) (s : SyncStore), qs.Nodup → p ∈ qs →
      ((qs.foldl (syncStep extract hash disk) s).nodes.filter
        (fun n => n.filePath == p)) = extract p c := by
  intro qs
  induction qs with
  | nil => intro s _ hp; exact absurd hp (List.not_mem_nil p)
  | cons q rest ih =>
    intro s hnd hp
    rw [List.nodup_cons] at hnd
    obtain ⟨hqr, hrest⟩ := hnd
    rw [List.foldl_cons]
    by_cases hqp : q = p
    · subst hqp
      rw [filter_foldl_syncStep_not_mem hext rest _ hqr,
          filter_syncStep_eq hext hl]
    · rcases List.mem_cons.mp hp with rfl | hp2
      · exact absurd rfl hqp
      · exact ih _ hrest hp2

theorem nodes_foldl_delete_subset {n : Node} :
    ∀ (rs : List String) (s : SyncStore),
      n ∈ (rs.foldl deleteFileStore s).nodes → n ∈ s.nodes := by
  intro rs
  induction rs with
  | nil => intro s h; exact h
  | cons r rest ih =>
    intro s h
    rw [List.foldl_cons] at h
    exact List.mem_of_mem_filter (ih _ h)

theorem nodes_foldl_syncStep_decomp {extract : String → String → List Node}
    {hash : String → String} {disk : List (String × String)} {n : Node} :
    ∀ (qs : List String) (s : SyncStore),
      n ∈ (qs.foldl (syncStep extract hash disk) s).nodes →
      n ∈ s.nodes ∨ ∃ q c, diskLookup disk q = some c ∧ n ∈ extract q c := by
  intro qs
  induction qs with
  | nil => intro s h; exact Or.inl h
  | cons q rest ih =>
    intro s h
    rw [List.foldl_cons] at h
    rcases ih _ h with hstep | hex
    · unfold syncStep at hstep
      cases hl : diskLookup disk q with
      | none => rw [hl] at hstep; exact Or.inl hstep
      | some c =>
        rw [hl] at hstep
        rcases List.mem_append.mp hstep with h1 | h2
        · exact Or.inl (List.mem_of_mem_filter h1)
        · exact Or.inr ⟨q, c, hl, h2⟩
    · exact Or.inr hex

/-- After a sync, the nodes of a touched (added or modified) on-disk file
are exactly the fresh extraction of its current content — nothing of the
previous slice survives. -/
theorem sync_touched_nodes {extract : String → String → List Node}
    {hash : String → String} {disk : List (String × String)} {st : SyncStore}
    {p c : String}
    (hnd : (disk.map Prod.fst).Nodup)
    (hext : ∀ q c2 n, n ∈ extract q c2 → n.filePath = q)
    (hpc : (p, c) ∈ disk)
    (htouch : p ∈ (getChangedFiles hash disk st).added ∨
      p ∈ (getChangedFiles hash disk st).modified) :
    (sync extract hash disk st).1.nodes.filter (fun n => n.filePath == p)
      = extract p c := by
  have hlp : diskLookup disk p = some c := lookup_eq_some_of_mem_nodup hnd hpc
  have hna : (getChangedFiles hash disk st).added.Nodup := by
    unfold getChangedFiles
    exact ((List.filter_sublist disk).map Prod.fst).nodup hnd
  have hnm : (getChangedFiles hash disk st).modified.Nodup := by
    unfold getChangedFiles
    exact ((List.filter_sublist disk).map Prod.fst).nodup hnd
  have hdisj : (getChangedFiles hash disk st).added.Disjoint
      (getChangedFiles hash disk st).modified := by
    intro x hx1 hx2
    obtain ⟨_, hnone⟩ := mem_added_iff.mp hx1
    obtain ⟨_, h, _, hsome, _⟩ := mem_modified_iff.mp hx2
    rw [hnone] at hsome
    exact Option.noConfusion hsome
  have hndapp : ((getChangedFiles hash disk st).added
      ++ (getChangedFiles hash disk st).modified).Nodup :=
    List.Nodup.append hna hnm hdisj
  show ((((getChangedFiles hash disk st).added
      ++ (getChangedFiles hash disk st).modified).foldl
        (syncStep extract hash disk)
        ((getChangedFiles hash disk st).removed.foldl deleteFileStore st)).nodes.filter
      (fun n => n.filePath == p)) = extract p c
  exact filter_foldl_syncStep_mem hext hlp _ _ hndapp (List.mem_append.mpr htouch)

/-- C2: the sync partition and summary counts, and staleness removal: after
re-syncing, a touched file's nodes are exactly the new extraction, and a
name search for a symbol that existed only in the old version of a modified
file returns nothing. -/
theorem C2_theorem :
    (∀ (hash : String → String) (disk : List (String × String)) (st : SyncStore)
      (p : String),
      (p ∈ (getChangedFiles hash disk st).added ↔
        (∃ c, (p, c) ∈ disk) ∧ storeHash st p = none) ∧
      (p ∈ (getChangedFiles hash disk st).modified ↔
        ∃ c h, (p, c) ∈ disk ∧ storeHash st p = some h ∧ h ≠ hash c) ∧
      (p ∈ (getChangedFiles hash disk st).removed ↔
        (∃ r ∈ st.files, r.path = p) ∧ diskLookup disk p = none)) ∧
    (∀ (extract : String → String → List Node) (hash : String → String)
      (disk : List (String × String)) (st : SyncStore),
      (sync extract hash disk st).2
        = ⟨(getChangedFiles hash disk st).added.length,
            (getChangedFiles hash disk st).modified.length,
            (getChangedFiles hash disk st).removed.length,
            disk.length⟩) ∧
    (∀ (extract : String → String → List Node) (hash : String → String)
      (disk : List (String × String)) (st : SyncStore) (p c : String),
      (disk.map Prod.fst).Nodup →
      (∀ q c2 n, n ∈ extract q c2 → n.filePath = q) →
      (p, c) ∈ disk →
      (p ∈ (getChangedFiles hash disk st).added ∨
        p ∈ (getChangedFiles hash disk st).modified) →
      (sync extract hash disk st).1.nodes.filter (fun n => n.filePath == p)
        = extract p c) ∧
    (∀ (extract : String → String → List Node) (hash : String → String)
      (disk : List (String × String)) (st : SyncStore) (p c nm : String),
      (disk.map Prod.fst).Nodup →
      (∀ q c2 n, n ∈ extract q c2 → n.filePath = q) →
      (p, c) ∈ disk →
      (p ∈ (getChangedFiles hash disk st).added ∨
        p ∈ (getChangedFiles hash disk st).modified) →
      (∀ n ∈ st.nodes, n.name = nm → n.filePath = p) →
      (∀ q c2, (q, c2) ∈ disk → ∀ n ∈ extract q c2, n.name ≠ nm) →
      searchNodes (sync extract hash disk st).1 nm = []) := by
  refine ⟨fun hash disk st p => ⟨mem_added_iff, mem_modified_iff, mem_removed_iff⟩,
    fun extract hash disk st => rfl,
    fun extract hash disk st p c hnd hext hpc htouch =>
      sync_touched_nodes hnd hext hpc htouch, ?_⟩
  intro extract hash disk st p c nm hnd hext hpc htouch hold hnew
  rw [searchNodes, List.filter_eq_nil_iff]
  intro n hn hbeq
  have hnm : n.name = nm := by simpa [beq_iff_eq] using hbeq
  have hdec : n ∈ ((getChangedFiles hash disk st).removed.foldl deleteFileStore st).nodes
      ∨ ∃ q c2, diskLookup disk q = some c2 ∧ n ∈ extract q c2 := by
    apply nodes_foldl_syncStep_decomp
      ((getChangedFiles hash disk st).added ++ (getChangedFiles hash disk st).modified) _
    exact hn
  rcases hdec with hst | ⟨q, c2, hlq, hne⟩
  · have hstn : n ∈ st.nodes := nodes_foldl_delete_subset _ _ hst
    have hfp : n.filePath = p := hold n hstn hnm
    have hmemf : n ∈ (sync extract hash disk st).1.nodes.filter
        (fun n => n.filePath == p) := by
      rw [List.mem_filter]
      exact ⟨hn, by simp [hfp]⟩
    rw [sync_touched_nodes hnd hext hpc htouch] at hmemf
    exact hnew p c hpc n hmemf hnm
  · exact hnew q c2 (mem_of_lookup_eq_some hlq) n hne hnm

/-- A one-node-per-file toy extractor for the C2 witness scenario. -/
def toyExtract (p c : String) : List Node :=
  [{ id := p ++ ":" ++ c, kind := "function", name := c, qualifiedName := c,
     filePath := p, startLine := 1, endLine := 1, startColumn := 0, endColumn := 0,
     language := "typescript", isExported := true, updatedAt := 0 }]

/-- The C2 witness store: `src/index.ts` previously hashed `"hello"` and
holding the node named `hello`. -/
def toySyncStore : SyncStore :=
  { files := [⟨"src/index.ts", "hello"⟩]
  , nodes := toyExtract "src/index.ts" "hello" }

/-- C2 witness: `src/index.ts` rewritten on disk to define `goodbye`; the
file lands in the `modified` class and a name search for `hello` after the
sync returns nothing. -/
theorem C2_witness :
    "src/index.ts" ∈ (getChangedFiles (fun c => c) [("src/index.ts", "goodbye")]
      toySyncStore).modified ∧
    searchNodes (sync toyExtract (fun c => c) [("src/index.ts", "goodbye")]
      toySyncStore).1 "hello" = [] :=
  ⟨by decide,
   C2_theorem.2.2.2 toyExtract (fun c => c) [("src/index.ts", "goodbye")]
     toySyncStore "src/index.ts" "goodbye" "hello"
     (by decide)
     (by
       intro q c2 n h
       cases List.mem_singleton.mp h
       rfl)
     (by decide)
     (Or.inr (by decide))
     (by decide)
     (by
       intro q c2 hqc n hn
       cases List.mem_singleton.mp hqc
       cases List.mem_singleton.mp hn
       decide)⟩

/-! ## Path validation ( `utils.ts`, `validatePathWithinRoot`, exercised by
the security tests )

Modelled from the spec: resolve the supplied path against the project root
(POSIX semantics: split on `/`, process `.` and `..`, re-join absolute),
then accept exactly the root itself and its descendants — the string test
being equality with the resolved root or having `root + "/"` as a prefix.
`utils.ts` is not among the sources; only its tests are. -/

/-- Split a character list on `/`. -/
def splitAux : List Char → List Char → List (List Char)
  | [], cur => [cur.reverse]
  | c :: rest, cur =>
    if c = '/' then cur.reverse :: splitAux rest []
    else splitAux rest (c :: cur)

/-- Path segments: split on `/` and drop empties. -/
def splitPath (s : String) : List String :=
  ((splitAux s.data []).map (fun l => String.mk l)).filter (fun seg => seg != "")

/-- One normalization step: `.` is dropped, `..` pops, anything else is
pushed. -/
def normStep (acc : List String) (seg : String) : List String :=
  if seg = "." then acc
  else if seg = ".." then acc.dropLast
  else acc ++ [seg]

/-- Normalize a segment list, resolving `.` and `..` (a `..` at the root
stays at the root, as `path.resolve` does). -/
def normalizeSegs (segs : List String) : List String :=
  segs.foldl normStep []

/-- Join segments into `/a/b/...` (empty for no segments). -/
def slashJoin : List String → List Char
  | [] => []
  | s :: rest => '/' :: s.data ++ slashJoin rest

/-- The absolute path string of a segment list (`"/"` for the root). -/
def pathString (segs : List String) : String :=
  if segs.isEmpty then "/" else String.mk (slashJoin segs)

/-- POSIX absolute path test. -/
def isAbsolutePath (p : String) : Bool :=
  match p.data with
  | '/' :: _ => true
  | _ => false

/-- The segments `path.resolve(root, p)` produces. -/
def resolveSegs (root p : String) : List String :=
  if isAbsolutePath p then normalizeSegs (splitPath p)
  else normalizeSegs (splitPath root ++ splitPath p)

/-- Modelled from the spec: `validatePathWithinRoot(root, p)` returns the
resolved absolute path when it is the root or a descendant of it, else
`null`. -/
def validatePathWithinRoot (root p : String) : Option String :=
  let rootStr := pathString (normalizeSegs (splitPath root))
  let rStr := pathString (resolveSegs root p)
  if rStr = rootStr ∨ (rootStr ++ "/").data.isPrefixOf rStr.data then some rStr
  else none

/-- Well-formed path segments: nonempty and slash-free. -/
def segsOK (l : List String) : Prop :=
  ∀ s ∈ l, s ≠ "" ∧ ∀ ch ∈ s.data, ch ≠ '/'

theorem splitAux_noslash : ∀ (cs cur : List Char), (∀ c ∈ cur, c ≠ '/') →
    ∀ l ∈ splitAux cs cur, ∀ c ∈ l, c ≠ '/' := by
  intro cs
  induction cs with
  | nil =>
    intro cur hcur l hl c hc
    rw [splitAux] at hl
    cases List.mem_singleton.mp hl
    exact hcur c (List.mem_reverse.mp hc)
  | cons d rest ih =>
    intro cur hcur l hl c hc
    rw [splitAux] at hl
    by_cases hd : d = '/'
    · rw [if_pos hd] at hl
      rcases List.mem_cons.mp hl with rfl | hl2
      · exact hcur c (List.mem_reverse.mp hc)
      · exact ih [] (by intro x hx; exact absurd hx (List.not_mem_nil x)) l hl2 c hc
    · rw [if_neg hd] at hl
      refine ih (d :: cur) ?_ l hl c hc
      intro x hx
      rcases List.mem_cons.mp hx with rfl | hx2
      · exact hd
      · exact hcur x hx2

theorem splitPath_ok (s : String) : segsOK (splitPath s) := by
  intro seg hseg
  unfold splitPath at hseg
  rw [List.mem_filter] at hseg
  obtain ⟨hmem, hne⟩ := hseg
  rw [List.mem_map] at hmem
  obtain ⟨l, hl, rfl⟩ := hmem
  refine ⟨by simpa using hne, ?_⟩
  intro ch hch
  exact splitAux_noslash s.data [] (by intro x hx; exact absurd hx (List.not_mem_nil x))
    l hl ch hch

theorem normalizeSegs_ok {segs : List String} (h : segsOK segs) :
    segsOK (normalizeSegs segs) := by
  unfold normalizeSegs
  suffices hgen : ∀ (l acc : List String), segsOK acc → segsOK l →
      segsOK (l.foldl normStep acc) by
    exact hgen segs [] (by intro s hs; exact absurd hs (List.not_mem_nil s)) h
  intro l
  induction l with
  | nil => intro acc hacc _; exact hacc
  | cons seg rest ih =>
    intro acc hacc hl
    rw [List.foldl_cons]
    refine ih _ ?_ (fun s hs => hl s (List.mem_cons_of_mem seg hs))
    intro s hs
    unfold normStep at hs
    by_cases h1 : seg = "."
    · rw [if_pos h1] at hs; exact hacc s hs
    · rw [if_neg h1] at hs
      by_cases h2 : seg = ".."
      · rw [if_pos h2] at hs
        exact hacc s ((List.dropLast_sublist acc).subset hs)
      · rw [if_neg h2] at hs
        rcases List.mem_append.mp hs with hs1 | hs2
        · exact hacc s hs1
        · cases List.mem_singleton.mp hs2
          exact hl seg (List.mem_cons_self seg rest)

theorem resolveSegs_ok (root p : String) : segsOK (resolveSegs root p) := by
  unfold resolveSegs
  by_cases h : isAbsolutePath p = true
  · rw [if_pos h]
    exact normalizeSegs_ok (splitPath_ok p)
  · rw [if_neg h]
    refine normalizeSegs_ok ?_
    intro s hs
    rcases List.mem_append.mp hs with h1 | h2
    · exact splitPath_ok root s h1
    · exact splitPath_ok p s h2

theorem str_data_inj {a b : String} : a.data = b.data ↔ a = b :=
  ⟨String.ext, fun h => h ▸ rfl⟩

theorem seg_eq_aux : ∀ (x y A B : List Char),
    (∀ c ∈ x, c ≠ '/') → (∀ c ∈ y, c ≠ '/') →
    (A = [] ∨ A.head? = some '/') → (B = [] ∨ B.head? = some '/') →
    (x ++ A = y ++ B ↔ x = y ∧ A = B) := by
  intro x
  induction x with
  | nil =>
    intro y A B _ hy hA _
    cases y with
    | nil => simp
    | cons b y' =>
      simp only [List.nil_append, List.cons_append]
      constructor
      · intro h
        rcases hA with rfl | hA
        · exact absurd h (by simp)
        · have hb : A.head? = some b := by rw [h]; rfl
          rw [hA] at hb
          cases hb
          exact absurd rfl (hy '/' (List.mem_cons_self '/' y'))
      · rintro ⟨h1, _⟩
        exact absurd h1 (by simp)
  | cons a x' ih =>
    intro y A B hx hy hA hB
    cases y with
    | nil =>
      simp only [List.cons_append, List.nil_append]
      constructor
      · intro h
        rcases hB with rfl | hB
        · exact absurd h (by simp)
        · have hb : B.head? = some a := by rw [← h]; rfl
          rw [hB] at hb
          cases hb
          exact absurd rfl (hx '/' (List.mem_cons_self '/' x'))
      · rintro ⟨h1, _⟩
        exact absurd h1 (by simp)
    | cons b y' =>
      simp only [List.cons_append, List.cons.injEq]
      constructor
      · rintro ⟨rfl, h2⟩
        obtain ⟨h3, h4⟩ := (ih y' A B (fun c hc => hx c (List.mem_cons_of_mem a hc))
          (fun c hc => hy c (List.mem_cons_of_mem a hc)) hA hB).mp h2
        exact ⟨⟨rfl, h3⟩, h4⟩
      · rintro ⟨⟨rfl, rfl⟩, rfl⟩
        exact ⟨rfl, rfl⟩

theorem seg_prefix_aux : ∀ (x y A B : List Char),
    (∀ c ∈ x, c ≠ '/') → (∀ c ∈ y, c ≠ '/') →
    A.head? = some '/' → (B = [] ∨ B.head? = some '/') →
    (x ++ A <+: y ++ B ↔ x = y ∧ A <+: B) := by
  intro x
  induction x with
  | nil =>
    intro y A B _ hy hA _
    cases y with
    | nil => simp
    | cons b y' =>
      simp only [List.nil_append, List.cons_append]
      constructor
      · intro h
        cases A with
        | nil => exact absurd hA (by simp)
        | cons c A' =>
          cases hA
          obtain ⟨hcb, _⟩ := List.cons_prefix_cons.mp h
          exact absurd hcb.symm (hy b (List.mem_cons_self b y'))
      · rintro ⟨h1, _⟩
        exact absurd h1 (by simp)
  | cons a x' ih =>
    intro y A B hx hy hA hB
    cases y with
    | nil =>
      simp only [List.cons_append, List.nil_append]
      constructor
      · intro h
        rcases hB with rfl | hB
        · have := List.prefix_nil.mp h
          exact absurd this (by simp)
        · cases B with
          | nil => exact absurd hB (by simp)
          | cons c B' =>
            cases hB
            obtain ⟨hac, _⟩ := List.cons_prefix_cons.mp h
            exact absurd hac (hx a (List.mem_cons_self a x'))
      · rintro ⟨h1, _⟩
        exact absurd h1 (by simp)
    | cons b y' =>
      simp only [List.cons_append]
      rw [List.cons_prefix_cons,
          ih y' A B (fun c hc => hx c (List.mem_cons_of_mem a hc))
            (fun c hc => hy c (List.mem_cons_of_mem b hc)) hA hB]
      constructor
      · rintro ⟨rfl, rfl, h3⟩
        exact ⟨rfl, h3⟩
      · rintro ⟨heq, h3⟩
        cases heq
        exact ⟨rfl, rfl, h3⟩

theorem slashJoin_nil_or_head : ∀ (l : List String),
    slashJoin l = [] ∨ (slashJoin l).head? = some '/' := by
  intro l
  cases l with
  | nil => exact Or.inl rfl
  | cons s rest => exact Or.inr rfl

theorem slashJoin_slash_head : ∀ (l : List String),
    (slashJoin l ++ ['/']).head? = some '/' := by
  intro l
  cases l with
  | nil => rfl
  | cons s rest => rfl

theorem slashJoin_inj : ∀ (xs ys : List String), segsOK xs → segsOK ys →
    (slashJoin xs = slashJoin ys ↔ xs = ys) := by
  intro xs
  induction xs with
  | nil =>
    intro ys _ _
    cases ys with
    | nil => simp
    | cons y ys' =>
      apply iff_of_false
      · intro h
        exact List.noConfusion (h.trans rfl)
      · intro h
        exact List.noConfusion h
  | cons x xs' ih =>
    intro ys hxs hys
    cases ys with
    | nil =>
      apply iff_of_false
      · intro h
        exact List.noConfusion h
      · intro h
        exact List.noConfusion h
    | cons y ys' =>
      show ('/' :: (x.data ++ slashJoin xs') = '/' :: (y.data ++ slashJoin ys')) ↔ _
      rw [List.cons.injEq]
      have hx := hxs x (List.mem_cons_self x xs')
      have hy := hys y (List.mem_cons_self y ys')
      simp only [eq_self_iff_true, true_and]
      rw [seg_eq_aux x.data y.data _ _ hx.2 hy.2
        (slashJoin_nil_or_head xs') (slashJoin_nil_or_head ys')]
      rw [str_data_inj, ih ys' (fun s hs => hxs s (List.mem_cons_of_mem x hs))
        (fun s hs => hys s (List.mem_cons_of_mem y hs))]
      simp

theorem slashJoin_prefix_slash : ∀ (xs ys : List String), segsOK xs → segsOK ys →
    ((slashJoin xs ++ ['/']) <+: slashJoin ys ↔ xs <+: ys ∧ xs ≠ ys) := by
  intro xs
  induction xs with
  | nil =>
    intro ys _ _
    cases ys with
    | nil =>
      apply iff_of_false
      · intro h
        exact List.noConfusion (List.prefix_nil.mp h)
      · rintro ⟨_, h⟩
        exact h rfl
    | cons y ys' =>
      apply iff_of_true
      · show ('/' :: []) <+: ('/' :: (y.data ++ slashJoin ys'))
        rw [List.cons_prefix_cons]
        exact ⟨rfl, List.nil_prefix⟩
      · exact ⟨List.nil_prefix, fun h => List.noConfusion h⟩
  | cons x xs' ih =>
    intro ys hxs hys
    cases ys with
    | nil =>
      apply iff_of_false
      · intro h
        exact List.noConfusion (List.prefix_nil.mp h)
      · rintro ⟨h, _⟩
        exact List.noConfusion (List.prefix_nil.mp h)
    | cons y ys' =>
      show ('/' :: (x.data ++ slashJoin xs')) ++ ['/'] <+: '/' :: (y.data ++ slashJoin ys') ↔ _
      rw [List.cons_append, List.cons_prefix_cons, List.append_assoc]
      have hx := hxs x (List.mem_cons_self x xs')
      have hy := hys y (List.mem_cons_self y ys')
      rw [seg_prefix_aux x.data y.data _ _ hx.2 hy.2
        (slashJoin_slash_head xs') (slashJoin_nil_or_head ys')]
      rw [str_data_inj, ih ys' (fun s hs => hxs s (List.mem_cons_of_mem x hs))
        (fun s hs => hys s (List.mem_cons_of_mem y hs))]
      rw [List.cons_prefix_cons]
      constructor
      · rintro ⟨h0, rfl, h1, h2⟩
        exact ⟨⟨rfl, h1⟩, fun hc => h2 (by cases hc; rfl)⟩
      · rintro ⟨⟨rfl, h1⟩, h2⟩
        exact ⟨rfl, rfl, h1, fun hc => h2 (by rw [hc])⟩

theorem pathString_cons_data (s : String) (rest : List String) :
    (pathString (s :: rest)).data = '/' :: (s.data ++ slashJoin rest) := rfl

/-- The string test of `validatePathWithinRoot` — equality with the resolved
root, or `root + "/"` as a string prefix — holds exactly when the root's
segments are a prefix of the resolved path's segments. -/
theorem validate_cond_iff (root p : String)
    (hroot : normalizeSegs (splitPath root) ≠ []) :
    (pathString (resolveSegs root p) = pathString (normalizeSegs (splitPath root)) ∨
      ((pathString (normalizeSegs (splitPath root)) ++ "/")).data.isPrefixOf
        (pathString (resolveSegs root p)).data = true) ↔
    normalizeSegs (splitPath root) <+: resolveSegs root p := by
  have hRok : segsOK (normalizeSegs (splitPath root)) := normalizeSegs_ok (splitPath_ok root)
  have hSok : segsOK (resolveSegs root p) := resolveSegs_ok root p
  obtain ⟨r0, R', hR0⟩ := List.exists_cons_of_ne_nil hroot
  cases hS0 : resolveSegs root p with
  | nil =>
    apply iff_of_false
    · rintro (h1 | h2)
      · rw [hR0] at h1
        have hd := congrArg String.data h1
        rw [pathString_cons_data] at hd
        have hdd : ([] : List Char) = r0.data ++ slashJoin R' := (List.cons.injEq _ _ _ _).mp hd |>.2
        have hr0 : r0.data = [] := (List.append_eq_nil.mp hdd.symm).1
        have : r0 = "" := String.ext hr0
        exact (hRok r0 (by rw [hR0]; exact List.mem_cons_self r0 R')).1 this
      · have hpre := List.isPrefixOf_iff_prefix.mp h2
        have hlen := hpre.length_le
        rw [hR0] at hlen
        rw [show ((pathString (r0 :: R') ++ "/")).data
            = '/' :: ((r0.data ++ slashJoin R') ++ ['/']) from rfl] at hlen
        rw [show (pathString ([] : List String)).data = ['/'] from rfl] at hlen
        simp [List.length_append] at hlen
    · rw [hR0]
      intro hp
      have := hp.length_le
      simp at this
  | cons s0 S' =>
    have hSok2 : segsOK (s0 :: S') := hS0 ▸ hSok
    have hRok2 : segsOK (r0 :: R') := hR0 ▸ hRok
    have h1 : (pathString (s0 :: S') = pathString (r0 :: R')) ↔ (s0 :: S') = (r0 :: R') := by
      constructor
      · intro h
        have hd := congrArg String.data h
        rw [pathString_cons_data, pathString_cons_data] at hd
        exact (slashJoin_inj _ _ hSok2 hRok2).mp hd
      · intro h; rw [h]
    have h2 : (((pathString (r0 :: R') ++ "/")).data.isPrefixOf
        (pathString (s0 :: S')).data = true) ↔
        ((r0 :: R') <+: (s0 :: S') ∧ (r0 :: R') ≠ (s0 :: S')) := by
      rw [List.isPrefixOf_iff_prefix]
      rw [show ((pathString (r0 :: R') ++ "/")).data
          = slashJoin (r0 :: R') ++ ['/'] from rfl]
      rw [show (pathString (s0 :: S')).data = slashJoin (s0 :: S') from rfl]
      exact slashJoin_prefix_slash _ _ hRok2 hSok2
    rw [hR0, h1, h2]
    constructor
    · rintro (heq | ⟨hp, _⟩)
      · rw [← heq]
      · exact hp
    · intro hp
      by_cases heq : (r0 :: R') = (s0 :: S')
      · exact Or.inl heq.symm
      · exact Or.inr ⟨hp, heq⟩

/-- C7: `validatePathWithinRoot` accepts exactly the paths whose resolution
stays at or below the root (returning the resolved absolute path) and
rejects every path that escapes after normalization, including `..`
traversal and absolute paths outside the root. -/
theorem C7_theorem :
    (∀ root p : String, normalizeSegs (splitPath root) ≠ [] →
      (validatePathWithinRoot root p = some (pathString (resolveSegs root p)) ↔
        normalizeSegs (splitPath root) <+: resolveSegs root p) ∧
      (validatePathWithinRoot root p = none ↔
        ¬ normalizeSegs (splitPath root) <+: resolveSegs root p)) ∧
    validatePathWithinRoot "/tmp/proj" "src/index.ts" = some "/tmp/proj/src/index.ts" ∧
    validatePathWithinRoot "/tmp/proj" "src/db/queries.ts"
      = some "/tmp/proj/src/db/queries.ts" ∧
    validatePathWithinRoot "/tmp/proj" "../../etc/passwd" = none ∧
    validatePathWithinRoot "/tmp/proj" "src/../../etc/passwd" = none ∧
    validatePathWithinRoot "/tmp/proj" "." = some "/tmp/proj" ∧
    validatePathWithinRoot "/tmp/proj" "/tmp/outside.txt" = none ∧
    validatePathWithinRoot "/tmp/proj" "/tmp/proj/src/file.ts"
      = some "/tmp/proj/src/file.ts" := by
  refine ⟨?_, by decide, by decide, by decide, by decide, by decide, by decide, by decide⟩
  intro root p hroot
  have hC := validate_cond_iff root p hroot
  constructor
  · show (if (pathString (resolveSegs root p) = pathString (normalizeSegs (splitPath root)) ∨
        ((pathString (normalizeSegs (splitPath root)) ++ "/")).data.isPrefixOf
          (pathString (resolveSegs root p)).data = true)
      then some (pathString (resolveSegs root p)) else none)
        = some (pathString (resolveSegs root p)) ↔ _
    by_cases hc : (pathString (resolveSegs root p) = pathString (normalizeSegs (splitPath root)) ∨
        ((pathString (normalizeSegs (splitPath root)) ++ "/")).data.isPrefixOf
          (pathString (resolveSegs root p)).data = true)
    · rw [if_pos hc]
      exact iff_of_true rfl (hC.mp hc)
    · rw [if_neg hc]
      exact iff_of_false (fun h => Option.noConfusion h) (fun hp => hc (hC.mpr hp))
  · show (if (pathString (resolveSegs root p) = pathString (normalizeSegs (splitPath root)) ∨
        ((pathString (normalizeSegs (splitPath root)) ++ "/")).data.isPrefixOf
          (pathString (resolveSegs root p)).data = true)
      then some (pathString (resolveSegs root p)) else none) = none ↔ _
    by_cases hc : (pathString (resolveSegs root p) = pathString (normalizeSegs (splitPath root)) ∨
        ((pathString (normalizeSegs (splitPath root)) ++ "/")).data.isPrefixOf
          (pathString (resolveSegs root p)).data = true)
    · rw [if_pos hc]
      exact iff_of_false (fun h => Option.noConfusion h) (fun hp => hp (hC.mp hc))
    · rw [if_neg hc]
      exact iff_of_true rfl (fun hp => hc (hC.mpr hp))

/-- C7 witness: the general characterization applied at root `/tmp/proj` and
the escaping input `../../x`. -/
theorem C7_witness :
    normalizeSegs (splitPath "/tmp/proj") ≠ [] ∧
      validatePathWithinRoot "/tmp/proj" "../../x" = none :=
  ⟨by decide,
   (C7_theorem.1 "/tmp/proj" "../../x" (by decide)).2.mpr (by decide)⟩

/-! ## Advisory file lock ( `utils.ts`, `FileLock`, exercised by the
security tests )

Modelled from the spec: the lock is a file `target + ".lock"` holding the
holder's process identifier; a lock file older than the stale threshold is
abandoned and reclaimable; `release` deletes the file and is a no-op when
the lock is not held.  The filesystem is an association list, and `acquire`
is the outcome of the retry loop: with no competing writer changing the
filesystem during the wait, the loop either succeeds at once or still sees
the fresh foreign lock when the timeout elapses (`utils.ts` is not among
the sources; only its tests are). -/

/-- A lock file on disk: content and modification time. -/
structure LockFile where
  content : String
  mtime : Nat
deriving DecidableEq, Repr

/-- A `FileLock` handle. -/
structure FileLock where
  target : String
  pid : Nat
  acquired : Bool
deriving DecidableEq, Repr

/-- The lock file path `target + ".lock"`. -/
def FileLock.lockPath (fl : FileLock) : String := fl.target ++ ".lock"

/-- Filesystem lookup. -/
def fsLookup (fs : List (String × LockFile)) (p : String) : Option LockFile :=
  fs.lookup p

/-- Delete a path. -/
def fsRemove (fs : List (String × LockFile)) (p : String) : List (String × LockFile) :=
  fs.filter (fun e => e.1 != p)

/-- Write (create or replace) a path. -/
def fsWrite (fs : List (String × LockFile)) (p : String) (lf : LockFile) :
    List (String × LockFile) :=
  fsRemove fs p ++ [(p, lf)]

/-- Modelled from the spec: one acquisition attempt — succeed on a free
target, reclaim a stale lock (older than `staleMs`), otherwise report
failure after the timeout. -/
def acquire (fl : FileLock) (fs : List (String × LockFile)) (now staleMs : Nat) :
    Bool × FileLock × List (String × LockFile) :=
  match fsLookup fs fl.lockPath with
  | none =>
    (true, { fl with acquired := true },
      fsWrite fs fl.lockPath ⟨toString fl.pid, now⟩)
  | some lf =>
    if staleMs < now - lf.mtime then
      (true, { fl with acquired := true },
        fsWrite fs fl.lockPath ⟨toString fl.pid, now⟩)
    else (false, fl, fs)

/-- Modelled from the spec: `release()` deletes the lock file when held and
does nothing otherwise. -/
def release (fl : FileLock) (fs : List (String × LockFile)) :
    FileLock × List (String × LockFile) :=
  if fl.acquired then ({ fl with acquired := false }, fsRemove fs fl.lockPath)
  else (fl, fs)

theorem lookup_eq_none_of_keys_ne {β : Type} {l : List (String × β)} {k : String}
    (h : ∀ q ∈ l, q.1 ≠ k) : l.lookup k = none := by
  induction l with
  | nil => rfl
  | cons q rest ih =>
    have hq : q.1 ≠ k := h q (List.mem_cons_self q rest)
    have hbeq : (k == q.1) = false := by
      simp [beq_iff_eq]
      exact fun hk => hq hk.symm
    obtain ⟨q1, q2⟩ := q
    simp only [List.lookup, hbeq]
    exact ih fun r hr => h r (List.mem_cons_of_mem _ hr)

theorem fsLookup_fsRemove_self (fs : List (String × LockFile)) (p : String) :
    fsLookup (fsRemove fs p) p = none := by
  apply lookup_eq_none_of_keys_ne
  intro q hq
  rw [fsRemove, List.mem_filter] at hq
  simpa [bne_iff_ne] using hq.2

theorem lookup_append_singleton {β : Type} {l : List (String × β)} {p : String}
    {b : β} (h : ∀ q ∈ l, q.1 ≠ p) : (l ++ [(p, b)]).lookup p = some b := by
  induction l with
  | nil => simp [List.lookup]
  | cons q rest ih =>
    have hq : q.1 ≠ p := h q (List.mem_cons_self q rest)
    have hbeq : (p == q.1) = false := by
      simp [beq_iff_eq]
      exact fun hk => hq hk.symm
    obtain ⟨q1, q2⟩ := q
    rw [List.cons_append]
    simp only [List.lookup, hbeq]
    exact ih fun r hr => h r (List.mem_cons_of_mem _ hr)

theorem fsRemove_keys_ne (fs : List (String × LockFile)) (p : String) :
    ∀ q ∈ fsRemove fs p, q.1 ≠ p := by
  intro q hq
  rw [fsRemove, List.mem_filter] at hq
  simpa [bne_iff_ne] using hq.2

theorem fsLookup_fsWrite_self (fs : List (String × LockFile)) (p : String)
    (lf : LockFile) : fsLookup (fsWrite fs p lf) p = some lf :=
  lookup_append_singleton (fsRemove_keys_ne fs p)

theorem acquire_of_none {fl : FileLock} {fs : List (String × LockFile)}
    {now staleMs : Nat} (h : fsLookup fs fl.lockPath = none) :
    acquire fl fs now staleMs
      = (true, { fl with acquired := true },
          fsWrite fs fl.lockPath ⟨toString fl.pid, now⟩) := by
  unfold acquire
  simp only [h]

theorem acquire_of_stale {fl : FileLock} {fs : List (String × LockFile)}
    {now staleMs : Nat} {lf : LockFile} (h : fsLookup fs fl.lockPath = some lf)
    (hs : staleMs < now - lf.mtime) :
    acquire fl fs now staleMs
      = (true, { fl with acquired := true },
          fsWrite fs fl.lockPath ⟨toString fl.pid, now⟩) := by
  unfold acquire
  simp only [h]
  rw [if_pos hs]

theorem acquire_of_fresh {fl : FileLock} {fs : List (String × LockFile)}
    {now staleMs : Nat} {lf : LockFile} (h : fsLookup fs fl.lockPath = some lf)
    (hs : ¬ staleMs < now - lf.mtime) :
    acquire fl fs now staleMs = (false, fl, fs) := by
  unfold acquire
  simp only [h]
  rw [if_neg hs]

/-- C8: the advisory lock enforces a single writer — while a fresh lock file
is present a second acquire fails and changes nothing once its timeout
elapses; the lock file's content is exactly the holder's pid; a lock file
older than the stale threshold is reclaimed; and release removes the lock
file and is a no-op when the lock is not (or no longer) held. -/
theorem C8_theorem :
    (∀ (t : String) (pid1 pid2 : Nat) (fs : List (String × LockFile))
      (now1 now2 staleMs : Nat),
      fsLookup fs (t ++ ".lock") = none →
      (acquire ⟨t, pid1, false⟩ fs now1 staleMs).1 = true ∧
      (acquire ⟨t, pid1, false⟩ fs now1 staleMs).2.1.acquired = true ∧
      fsLookup (acquire ⟨t, pid1, false⟩ fs now1 staleMs).2.2 (t ++ ".lock")
        = some ⟨toString pid1, now1⟩ ∧
      (now1 ≤ now2 → now2 - now1 ≤ staleMs →
        acquire ⟨t, pid2, false⟩ (acquire ⟨t, pid1, false⟩ fs now1 staleMs).2.2
            now2 staleMs
          = (false, ⟨t, pid2, false⟩,
              (acquire ⟨t, pid1, false⟩ fs now1 staleMs).2.2))) ∧
    (∀ (t : String) (pid : Nat) (fs : List (String × LockFile))
      (now staleMs : Nat) (lf : LockFile),
      fsLookup fs (t ++ ".lock") = some lf → staleMs < now - lf.mtime →
      (acquire ⟨t, pid, false⟩ fs now staleMs).1 = true ∧
      fsLookup (acquire ⟨t, pid, false⟩ fs now staleMs).2.2 (t ++ ".lock")
        = some ⟨toString pid, now⟩) ∧
    (∀ (t : String) (pid : Nat) (fs : List (String × LockFile)),
      release ⟨t, pid, true⟩ fs = (⟨t, pid, false⟩, fsRemove fs (t ++ ".lock")) ∧
      fsLookup (fsRemove fs (t ++ ".lock")) (t ++ ".lock") = none ∧
      release ⟨t, pid, false⟩ fs = (⟨t, pid, false⟩, fs)) := by
  refine ⟨?_, ?_, ?_⟩
  · intro t pid1 pid2 fs now1 now2 staleMs hnone
    rw [acquire_of_none hnone]
    refine ⟨rfl, rfl, fsLookup_fsWrite_self fs _ _, ?_⟩
    intro h12 hfresh
    exact acquire_of_fresh (fsLookup_fsWrite_self fs _ _)
      (show ¬ staleMs < now2 - now1 by omega)
  · intro t pid fs now staleMs lf hsome hstale
    rw [acquire_of_stale hsome hstale]
    exact ⟨rfl, fsLookup_fsWrite_self fs _ _⟩
  · intro t pid fs
    exact ⟨rfl, fsLookup_fsRemove_self fs _, rfl⟩

/-- C8 witness: a concrete lock lifecycle: acquire on an empty filesystem at
time 0, the pid recorded, a second acquire failing at time 100 with a 200ms
stale threshold, and stale reclamation of a 60-second-old foreign lock. -/
theorem C8_witness :
    (fsLookup [] ("db" ++ ".lock") = none ∧
      (acquire ⟨"db", 1, false⟩ [] 0 200).1 = true ∧
      acquire ⟨"db", 2, false⟩ (acquire ⟨"db", 1, false⟩ [] 0 200).2.2 100 200
        = (false, ⟨"db", 2, false⟩, (acquire ⟨"db", 1, false⟩ [] 0 200).2.2)) ∧
    (acquire ⟨"db", 7, false⟩ [("db.lock", ⟨"99999", 0⟩)] 60000 1000).1 = true :=
  have h1 := C8_theorem.1 "db" 1 2 [] 0 100 200 rfl
  have h2 := C8_theorem.2.1 "db" 7 [("db.lock", ⟨"99999", 0⟩)] 60000 1000
    ⟨"99999", 0⟩ (by decide) (by decide)
  ⟨⟨rfl, h1.1, h1.2.2.2 (by decide) (by decide)⟩, h2.1⟩

end CodeGraph
